import Mathlib

/-!
Verification of the FileToClipboardTool repository (the tree-UI revision in
`filesummarizer.py`, plus `manage_filetypes.py`). The Python program is
shallowly embedded: paths become lists of components, the tk `Treeview`
becomes an association list of nodes keyed by natural-number identities,
Python dictionaries become association lists, and the interactive prompt of
`_is_valid_file` becomes an explicit answer parameter. Every definition
mirrors the corresponding Python function line by line; exceptions that the
source catches are modelled by the state reached when the handler runs.

The file is laid out with all definitions first, then all theorems.
-/

namespace FileSummarizer

/-! ## Python dictionaries as association lists

Insertion order is kept and keys are unique in every reachable state;
`dset` overwrites in place like a Python dict assignment, `ddel` removes
the key. -/

def dget {α β : Type} [DecidableEq α] : List (α × β) → α → Option β
  | [], _ => none
  | e :: m, k => if e.1 = k then some e.2 else dget m k

def dset {α β : Type} [DecidableEq α] : List (α × β) → α → β → List (α × β)
  | [], k, v => [(k, v)]
  | e :: m, k, v => if e.1 = k then (k, v) :: m else e :: dset m k v

def ddel {α β : Type} [DecidableEq α] : List (α × β) → α → List (α × β)
  | [], _ => []
  | e :: m, k => if e.1 = k then ddel m k else e :: ddel m k

/-! ## Path model

Python `pathlib.Path` objects are embedded as their component lists
(`Path.parts`, without a root marker). `pathName` is `Path.name`,
`pySuffix` is `Path.suffix` (the `0 < i < len(name) - 1` rule of pathlib),
`pyLower` is `str.lower`. -/

abbrev PyPath := List String

def pathName (p : PyPath) : String := p.getLastD ""

/-- `str.lower`, written over the character list so that it evaluates by
kernel reduction (the program only ever lowercases ASCII names). -/
def pyLower (s : String) : String := ⟨s.data.map Char.toLower⟩

/-- `str.startswith`. -/
def pyStartsWith (s pre : String) : Bool := pre.data.isPrefixOf s.data

def rfindDot (cs : List Char) : Option Nat :=
  ((cs.enum.filter (fun ic => ic.2 == '.')).map Prod.fst).getLast?

def pySuffix (name : String) : String :=
  match rfindDot name.toList with
  | some i => if 0 < i ∧ i < name.toList.length - 1 then ⟨name.toList.drop i⟩ else ""
  | none => ""

/-- `str(path)`: the components joined by the separator. -/
def pathStr : PyPath → String
  | [] => ""
  | [c] => c
  | c :: rest => c ++ "/" ++ pathStr rest

def splitSlashAux : List Char → List Char → PyPath
  | [], acc => [⟨acc.reverse⟩]
  | c :: rest, acc =>
    if c = '/' then ⟨acc.reverse⟩ :: splitSlashAux rest [] else splitSlashAux rest (c :: acc)

/-- `Path(string)`: the string split back into components. -/
def strPath (s : String) : PyPath := splitSlashAux s.data []

/-- The lower-cased suffix of the final component, as
`file_path.suffix.lower()` computes it. -/
def extLowerOf (p : PyPath) : String := pyLower (pySuffix (pathName p))

/-- Non-overlapping occurrences of a pattern inside a string, counted the
Python `s.count(pat)` way. The fuel `s.length` is exact: each step either
consumes the matched pattern (nonempty) or one character. -/
def countSubAux (pat : List Char) : Nat → List Char → Nat
  | 0, _ => 0
  | fuel + 1, s =>
    if pat.isPrefixOf s then 1 + countSubAux pat fuel (s.drop pat.length)
    else
      match s with
      | [] => 0
      | _ :: rest => countSubAux pat fuel rest

def countOccurrences (s pat : String) : Nat :=
  if pat.data = [] then 0 else countSubAux pat.data s.data.length s.data

/-! ## Settings Store (`load_settings` / `save_settings`)

The JSON settings file is embedded as an optional record of the three keys
the program reads; `none` at the outer level stands for a missing or
unparsable file (the `except` path of `load_settings`, which leaves the
defaults in place), `none` at a field for a key `settings.get` defaults. -/

def default_file_types : List String := [".py", ".ts", ".tsx", ".css", ".lua", "readme.md"]

def blacklisted_file_types : List String :=
  [".png", ".jpg", ".jpeg", ".gif", ".bmp",
   ".tif", ".tiff", ".pdf", ".doc", ".docx",
   ".xls", ".xlsx", ".ppt", ".pptx"]

structure SettingsFile where
  xml_format : Option Bool
  filepath : Option Bool
  allowed_file_types : Option (List String)
deriving Repr, DecidableEq

structure SettingsState where
  xml_format_enabled : Bool
  filepath_enabled : Bool
  allowed_file_types : List String
deriving Repr, DecidableEq

/-- The state `FilesSummarizer.__init__` sets up before `load_settings`
runs: both toggles true, the allowed set equal to the defaults. -/
def freshSettings : SettingsState :=
  { xml_format_enabled := true
    filepath_enabled := true
    allowed_file_types := default_file_types }

/-- Python `set.add`: a no-op when the element is present. -/
def setAdd (l : List String) (x : String) : List String :=
  if x ∈ l then l else l ++ [x]

def load_settings (st : SettingsState) (file : Option SettingsFile) : SettingsState :=
  match file with
  | none => st
  | some f =>
    { xml_format_enabled := f.xml_format.getD true
      filepath_enabled := f.filepath.getD true
      allowed_file_types := (f.allowed_file_types.getD []).foldl setAdd st.allowed_file_types }

def save_settings (st : SettingsState) : SettingsFile :=
  { xml_format := some st.xml_format_enabled
    filepath := some st.filepath_enabled
    allowed_file_types := some st.allowed_file_types }

/-! ## Path Filter (`_should_skip_path`, `_is_valid_file`) -/

def system_dirs : List String :=
  ["node_modules", "__pycache__", "venv", "env",
   "build", "dist", ".git", ".svn", ".hg"]

/-- The `while current != current.parent` walk of `_should_skip_path`: the
loop tests `current.name` and then steps to `current.parent`, so it visits
the component names from last to first; it is embedded as structural
recursion over the reversed component list. -/
def sysDirWalkRev : List String → Bool
  | [] => false
  | c :: rest => decide (c ∈ system_dirs) || sysDirWalkRev rest

def sysDirWalk (p : PyPath) : Bool := sysDirWalkRev p.reverse

def should_skip_path (p : PyPath) : Bool :=
  pyStartsWith (pathName p) "." || sysDirWalk p

/-- The filter state `_is_valid_file` reads and writes: the allowed set and
the per-session extension decision cache. -/
structure FilterState where
  allowed_file_types : List String
  extension_decisions : List (String × Bool)
deriving Repr, DecidableEq

/-- What one `_is_valid_file` call produces: the returned Bool, whether the
`messagebox.askyesno` prompt was shown, whether `save_settings` was
triggered, and the state afterwards. -/
structure ValidOutcome where
  result : Bool
  prompted : Bool
  saved : Bool
  state : FilterState
deriving Repr, DecidableEq

/-- `_is_valid_file`, with the blocking `messagebox.askyesno` call replaced
by the explicit `answer` parameter (the yes/no the user would give). -/
def is_valid_file (fs : FilterState) (file_path : PyPath) (answer : Bool) : ValidOutcome :=
  let ext_lower := pyLower (pySuffix (pathName file_path))
  let name_lower := pyLower (pathName file_path)
  if ext_lower ∈ blacklisted_file_types then
    { result := false, prompted := false, saved := false, state := fs }
  else if name_lower = "readme.md" then
    { result := true, prompted := false, saved := false, state := fs }
  else if ext_lower ∈ fs.allowed_file_types then
    { result := true, prompted := false, saved := false, state := fs }
  else
    match dget fs.extension_decisions ext_lower with
    | some d => { result := d, prompted := false, saved := false, state := fs }
    | none =>
      let fs1 : FilterState :=
        { fs with extension_decisions := fs.extension_decisions ++ [(ext_lower, answer)] }
      if answer then
        { result := true, prompted := true, saved := true,
          state := { fs1 with allowed_file_types := setAdd fs1.allowed_file_types ext_lower } }
      else
        { result := false, prompted := true, saved := false, state := fs1 }

/-! ## Category derivation (`get_file_type_text`, `determine_file_type`) -/

/-- `get_file_type_text`: the actual extension, `.md` for a readme, or
`Unknown` when there is none. -/
def get_file_type_text (file_path : PyPath) : String :=
  if pyLower (pathName file_path) = "readme.md" then ".md"
  else
    let ext := pyLower (pySuffix (pathName file_path))
    if ext ≠ "" then ext else "Unknown"

def symbol_folder : String := "📁"

/-- `determine_file_type`: the icon for the TreeView. The `is_dir`
filesystem probe of the source is an explicit argument; every call site in
`add_path_to_tree` reaches it with a dropped file path. -/
def determine_file_type (is_dir : Bool) (file_path : PyPath) : String :=
  if is_dir then symbol_folder
  else if pyLower (pathName file_path) = "readme.md" then "📄"
  else if pyLower (pySuffix (pathName file_path)) = ".py" then "🐍"
  else if pyLower (pySuffix (pathName file_path)) = ".ts" then "📘"
  else if pyLower (pySuffix (pathName file_path)) = ".tsx" then "📗"
  else if pyLower (pySuffix (pathName file_path)) = ".css" then "🎨"
  else if pyLower (pySuffix (pathName file_path)) = ".lua" then "🐬"
  else "❓"

/-! ## Content Aggregator (`format_content`, `process_files`,
`_process_and_copy`)

A file handed to `process_files` is embedded together with what the
filesystem does when the file is opened and read: it is a directory, it
yields text, it raises `UnicodeDecodeError`, or it raises some other
exception (`PermissionError`, a vanished file, ...). -/

structure FmtOpts where
  xml_format_enabled : Bool
  filepath_enabled : Bool
deriving Repr, DecidableEq

inductive ReadResult : Type
  | isDir : ReadResult
  | text (content : String) : ReadResult
  | decodeError : ReadResult
  | otherError : ReadResult
deriving Repr, DecidableEq

structure FileInput where
  parts : PyPath
  read : ReadResult
deriving Repr, DecidableEq

/-- `format_content`. `file_path.absolute()` is rendered by `pathStr`
(the paths the program handles are already absolute). -/
def format_content (o : FmtOpts) (file_path : PyPath) (content : String)
    (file_type : String) : String :=
  if o.xml_format_enabled then
    let header := "<file_info>\n"
      ++ (if o.filepath_enabled then "  <path>" ++ pathStr file_path ++ "</path>\n" else "")
      ++ "  <type>" ++ file_type ++ "</type>\n"
      ++ "</file_info>\n"
    header ++ "<content>\n" ++ content ++ "\n</content>\n"
  else
    (if o.filepath_enabled then "# " ++ pathStr file_path ++ "\n" else "")
      ++ content ++ "\n"

/-- The accumulator `process_files` builds: the four category buckets, the
readme slot, the two counters, and the warnings surfaced via `show_error`
for skipped files. -/
structure ProcOut where
  py_contents : List String
  ts_contents : List String
  css_contents : List String
  lua_contents : List String
  readme_content : String
  file_count : Nat
  total_characters : Nat
  warnings : List String
deriving Repr, DecidableEq

def emptyProcOut : ProcOut :=
  { py_contents := [], ts_contents := [], css_contents := [], lua_contents := []
    readme_content := "", file_count := 0, total_characters := 0, warnings := [] }

/-- One iteration of the `for idx, path in enumerate(file_paths, ...)` loop
of `process_files`. -/
def processOne (o : FmtOpts) (acc : ProcOut) (f : FileInput) : ProcOut :=
  match f.read with
  | .isDir => acc
  | .text content =>
    let content_with_header := format_content o f.parts content (get_file_type_text f.parts)
    let ext_lower := pyLower (pySuffix (pathName f.parts))
    let name_lower := pyLower (pathName f.parts)
    let acc :=
      if name_lower = "readme.md" then { acc with readme_content := content_with_header }
      else if ext_lower = ".py" then
        { acc with py_contents := acc.py_contents ++ [content_with_header] }
      else if ext_lower = ".ts" ∨ ext_lower = ".tsx" then
        { acc with ts_contents := acc.ts_contents ++ [content_with_header] }
      else if ext_lower = ".css" then
        { acc with css_contents := acc.css_contents ++ [content_with_header] }
      else if ext_lower = ".lua" then
        { acc with lua_contents := acc.lua_contents ++ [content_with_header] }
      else
        { acc with py_contents := acc.py_contents ++ [content_with_header] }
    { acc with file_count := acc.file_count + 1
               total_characters := acc.total_characters + content.length }
  | .decodeError =>
    { acc with warnings :=
        acc.warnings ++ ["Unable to read " ++ pathStr f.parts ++ " (UTF-8). Skipping."] }
  | .otherError =>
    { acc with warnings :=
        acc.warnings ++ ["Error processing file " ++ pathStr f.parts] }

def process_files (o : FmtOpts) (file_paths : List FileInput) : ProcOut :=
  file_paths.foldl (processOne o) emptyProcOut

/-- Python `sep.join(l)`. -/
def pyJoin (sep : String) : List String → String
  | [] => ""
  | [x] => x
  | x :: rest => x ++ sep ++ pyJoin sep rest

/-- The `combined_content` expression of `_process_and_copy`:
`"\n\n".join(filter(None, [...]))` with the readme slot last. -/
def combined_content (out : ProcOut) : String :=
  pyJoin "\n\n"
    (([pyJoin "\n\n" out.py_contents,
       pyJoin "\n\n" out.ts_contents,
       pyJoin "\n\n" out.css_contents,
       pyJoin "\n\n" out.lua_contents,
       out.readme_content]).filter (fun s => s ≠ ""))

/-! ### Observation helpers for the aggregator claims -/

/-- The file was read successfully as text. -/
def isReadableText : FileInput → Bool
  | ⟨_, .text _⟩ => true
  | _ => false

/-- The read raised `UnicodeDecodeError`. -/
def isDecodeErrorInput : FileInput → Bool
  | ⟨_, .decodeError⟩ => true
  | _ => false

/-- The successfully read files of a batch, paired with their text, in
batch order. -/
def readTexts : List FileInput → List (FileInput × String)
  | [] => []
  | f :: rest =>
    match f.read with
    | .text c => (f, c) :: readTexts rest
    | _ => readTexts rest

def inputExt (f : FileInput) : String := pyLower (pySuffix (pathName f.parts))

def isReadmeName (f : FileInput) : Bool := decide (pyLower (pathName f.parts) = "readme.md")

/-- Routed to the `py_contents` bucket: the `.py` arm together with the
catch-all `else` arm of `process_files`. -/
def routesPy (f : FileInput) : Bool :=
  !isReadmeName f &&
    !(decide (inputExt f = ".ts") || decide (inputExt f = ".tsx")
      || decide (inputExt f = ".css") || decide (inputExt f = ".lua"))

def routesTs (f : FileInput) : Bool :=
  !isReadmeName f && !decide (inputExt f = ".py")
    && (decide (inputExt f = ".ts") || decide (inputExt f = ".tsx"))

def routesCss (f : FileInput) : Bool :=
  !isReadmeName f && !decide (inputExt f = ".py")
    && !(decide (inputExt f = ".ts") || decide (inputExt f = ".tsx"))
    && decide (inputExt f = ".css")

def routesLua (f : FileInput) : Bool :=
  !isReadmeName f && !decide (inputExt f = ".py")
    && !(decide (inputExt f = ".ts") || decide (inputExt f = ".tsx"))
    && !decide (inputExt f = ".css") && decide (inputExt f = ".lua")

/-- The wrapped content of one read file, as `process_files` builds it. -/
def fmtOf (o : FmtOpts) (fc : FileInput × String) : String :=
  format_content o fc.1.parts fc.2 (get_file_type_text fc.1.parts)

/-! ## The Path-Tree Index: tk Treeview plus the two dictionaries

A `Treeview` is an arena of nodes keyed by the identities `tree.insert`
hands out (an increasing counter, mirroring tk item ids). `get_children`
returns a parent's children in insertion order, as tk does for `"end"`
inserts. -/

structure TreeNode where
  parent : Option Nat
  text : String
  values : List String
  isOpen : Bool
deriving Repr, DecidableEq

structure Treeview where
  nodes : List (Nat × TreeNode)
  nextId : Nat
deriving Repr, DecidableEq

/-- tk `tree.exists(item)`. -/
def Treeview.existsItem (t : Treeview) (i : Nat) : Bool := (dget t.nodes i).isSome

/-- tk `tree.get_children(item)`; `none` is the root `""`. -/
def Treeview.get_children (t : Treeview) (pid : Option Nat) : List Nat :=
  (t.nodes.filter (fun e => decide (e.2.parent = pid))).map Prod.fst

/-- tk `tree.parent(item)`, with the root `""` embedded as `none`. -/
def Treeview.parentOf (t : Treeview) (i : Nat) : Option Nat :=
  match dget t.nodes i with
  | some n => n.parent
  | none => none

/-- tk `tree.insert(parent, "end", ...)`: a fresh id, appended at the end
of the parent's children. -/
def Treeview.insert (t : Treeview) (parent : Option Nat) (text : String)
    (values : List String) (isOpen : Bool) : Treeview × Nat :=
  ({ nodes := t.nodes ++
        [(t.nextId, { parent := parent, text := text, values := values, isOpen := isOpen })]
     nextId := t.nextId + 1 }, t.nextId)

/-- `get_all_children`, written with explicit recursion fuel; the fuel
`t.nodes.length` suffices on every acyclic tree (every tree tk can build),
which `getAllChildren_complete` below makes precise. -/
def getAllChildrenFuel (t : Treeview) : Nat → Nat → List Nat
  | 0, _ => []
  | fuel + 1, i => (t.get_children (some i)).flatMap (fun c => c :: getAllChildrenFuel t fuel c)

def Treeview.get_all_children (t : Treeview) (i : Nat) : List Nat :=
  getAllChildrenFuel t t.nodes.length i

/-- tk `tree.delete(item)`: removes the item and all its descendants. -/
def Treeview.delete (t : Treeview) (i : Nat) : Treeview :=
  let doomed := i :: t.get_all_children i
  { t with nodes := t.nodes.filter (fun e => decide (e.1 ∉ doomed)) }

/-- One row of `self.file_items`: the data `add_path_to_tree` stores per
node. `tk.BooleanVar` is embedded as its Bool value. -/
structure FileItem where
  path : PyPath
  type : String
  selected : Bool
deriving Repr, DecidableEq

/-- The state the Path-Tree Index operations act on: the TreeView and the
two parallel dictionaries of `FilesSummarizer`. -/
structure AppState where
  tree : Treeview
  file_items : List (Nat × FileItem)
  path_to_id : List (PyPath × Nat)
deriving Repr, DecidableEq

def initState : AppState :=
  { tree := { nodes := [], nextId := 1 }, file_items := [], path_to_id := [] }

/-- The create branch of the `add_path_to_tree` loop body: insert either
the final file node or an intermediate folder node, and record it in both
dictionaries. -/
def addCreate (fullPath : PyPath) (s : AppState) (current_parent : Option Nat)
    (cp : PyPath) (part : String) : AppState × Nat :=
  if cp = fullPath then
    let symbol := determine_file_type false cp
    let file_type := get_file_type_text cp
    let r := s.tree.insert current_parent part [symbol, pathStr cp] false
    ({ tree := r.1
       path_to_id := dset s.path_to_id cp r.2
       file_items := dset s.file_items r.2
         { path := cp, type := file_type, selected := false } }, r.2)
  else
    let r := s.tree.insert current_parent part [symbol_folder, pathStr cp] true
    ({ tree := r.1
       path_to_id := dset s.path_to_id cp r.2
       file_items := dset s.file_items r.2
         { path := cp, type := "Folder", selected := false } }, r.2)

/-- The `for part in path.parts` loop of `add_path_to_tree`. -/
def addLoop (fullPath : PyPath) : List String → AppState → Option Nat → PyPath → AppState
  | [], s, _, _ => s
  | part :: rest, s, current_parent, current_path =>
    let cp := current_path ++ [part]
    match dget s.path_to_id cp with
    | some existing_id =>
      if s.tree.existsItem existing_id then
        addLoop fullPath rest s (some existing_id) cp
      else
        let r := addCreate fullPath s current_parent cp part
        addLoop fullPath rest r.1 (some r.2) cp
    | none =>
      let r := addCreate fullPath s current_parent cp part
      addLoop fullPath rest r.1 (some r.2) cp

/-- `add_path_to_tree`: a no-op when the path is already present,
otherwise walk the components, reusing live nodes and creating the rest. -/
def add_path_to_tree (s : AppState) (path : PyPath) : AppState :=
  if (dget s.path_to_id path).isSome then s
  else addLoop path path s none []

/-- The body of the `for child_id in items_to_remove` loop of
`remove_item`, for one child: drop it from `file_items`/`path_to_id` and
from the tree. `none` is the `TclError` that `self.tree.item` raises on an
id that is already gone (possible only for ids outside `file_items`),
which the enclosing `except` swallows. -/
def removeChildStep (s : AppState) (cid : Nat) : Option AppState :=
  match dget s.file_items cid with
  | some it =>
    let s1 : AppState := { s with file_items := ddel s.file_items cid }
    let s2 : AppState :=
      if (dget s1.path_to_id it.path).isSome then
        { s1 with path_to_id := ddel s1.path_to_id it.path }
      else s1
    some (if s2.tree.existsItem cid then { s2 with tree := s2.tree.delete cid } else s2)
  | none =>
    match dget s.tree.nodes cid with
    | none => none
    | some node =>
      let s2 : AppState :=
        if node.values ≠ [] then
          let folder_path := strPath (node.values.getLastD "")
          if (dget s.path_to_id folder_path).isSome then
            { s with path_to_id := ddel s.path_to_id folder_path }
          else s
        else s
      some (if s2.tree.existsItem cid then { s2 with tree := s2.tree.delete cid } else s2)

/-- The whole removal loop; the Bool records whether it ran to completion
(`false` when the `TclError` path fired, skipping the rest of the body). -/
def removeChildren (s : AppState) : List Nat → AppState × Bool
  | [] => (s, true)
  | cid :: rest =>
    match removeChildStep s cid with
    | some s1 => removeChildren s1 rest
    | none => (s, false)

/-- The dictionary cleanup for one emptied parent inside
`cleanup_empty_parents` (run before the tree delete, as in the source). -/
def cleanupMaps (s : AppState) (p : Nat) : AppState :=
  match dget s.file_items p with
  | some it =>
    let s1 : AppState := { s with file_items := ddel s.file_items p }
    if (dget s1.path_to_id it.path).isSome then
      { s1 with path_to_id := ddel s1.path_to_id it.path }
    else s1
  | none =>
    match dget s.tree.nodes p with
    | some node =>
      if node.values ≠ [] then
        let folder_path := strPath (node.values.getLastD "")
        if (dget s.path_to_id folder_path).isSome then
          { s with path_to_id := ddel s.path_to_id folder_path }
        else s
      else s
    | none => s

/-- The `while parent_id:` loop of `cleanup_empty_parents`, with explicit
fuel. Every iteration that does not stop deletes at least the parent node
itself, so `s.tree.nodes.length + 1` fuel always reaches the natural exit
of the loop; `cleanupFuel_irrelevant` below makes that precise. -/
def cleanupFuel : Nat → AppState → Option Nat → AppState
  | 0, s, _ => s
  | _, s, none => s
  | fuel + 1, s, some p =>
    if s.tree.existsItem p then
      if s.tree.get_children (some p) = [] then
        let s1 := cleanupMaps s p
        let grandparent := s1.tree.parentOf p
        cleanupFuel fuel { s1 with tree := s1.tree.delete p } grandparent
      else s
    else s

def cleanup_empty_parents (s : AppState) (parent_id : Option Nat) : AppState :=
  cleanupFuel (s.tree.nodes.length + 1) s parent_id

/-- `remove_item`: a guarded no-op for a dead id; otherwise delete the
node and all its descendants from the tree and both dictionaries, then
prune newly empty ancestors. When the loop dies on the `TclError`, the
`except` handler runs instead of the pruning, leaving the state reached so
far — exactly what the source does. -/
def remove_item (s : AppState) (item_id : Nat) : AppState :=
  if s.tree.existsItem item_id then
    let parent_id := s.tree.parentOf item_id
    let items_to_remove := item_id :: s.tree.get_all_children item_id
    let r := removeChildren s items_to_remove
    if r.2 then cleanup_empty_parents r.1 parent_id else r.1
  else s

/-- `clear_all`: confirmed, it deletes every top-level item (tk removes
each one's subtree with it) and clears both dictionaries; declined, it
does nothing. -/
def clear_all (s : AppState) (confirmed : Bool) : AppState :=
  if confirmed then
    { tree := (s.tree.get_children none).foldl Treeview.delete s.tree
      file_items := []
      path_to_id := [] }
  else s

/-- The operations of the Path-Tree Index, as the spec names them:
`insert(path)` is `add_path_to_tree`, `removeSubtree(nodeId)` is
`remove_item`, clear-all is `clear_all` with the confirmation answer. -/
inductive Op : Type
  | insert (path : PyPath) : Op
  | removeSubtree (item_id : Nat) : Op
  | clearAll (confirmed : Bool) : Op
deriving Repr, DecidableEq

def applyOp (s : AppState) : Op → AppState
  | .insert p => add_path_to_tree s p
  | .removeSubtree i => remove_item s i
  | .clearAll c => clear_all s c

def runOps (ops : List Op) : AppState := ops.foldl applyOp initState

/-! ## The tree-shape relations and the reachable-state invariant -/

/-- Node `c` is in the tree with parent `p`. -/
def HasParent (t : Treeview) (c p : Nat) : Prop :=
  ∃ n, dget t.nodes c = some n ∧ n.parent = some p

/-- `Desc t a x`: `x` lies strictly below `a` in the tree. -/
inductive Desc (t : Treeview) : Nat → Nat → Prop
  | base {a c : Nat} : HasParent t c a → Desc t a c
  | step {a c x : Nat} : HasParent t c a → Desc t c x → Desc t a x

/-- The inductive invariant of the Path-Tree Index, with the
`no_empty_folder` clause optionally exempting one node (the node whose
children are in flight during an insert, or the parent about to be pruned
during a removal). `Inv s` is `InvAt s none`: no exemption. -/
structure InvAt (s : AppState) (exempt : Option Nat) : Prop where
  tree_nodup : (s.tree.nodes.map Prod.fst).Nodup
  items_nodup : (s.file_items.map Prod.fst).Nodup
  paths_nodup : (s.path_to_id.map Prod.fst).Nodup
  fresh : ∀ e ∈ s.tree.nodes, e.1 < s.tree.nextId
  parent_lt : ∀ e ∈ s.tree.nodes, ∀ p, e.2.parent = some p → p < e.1
  parent_mem : ∀ e ∈ s.tree.nodes, ∀ p, e.2.parent = some p → (dget s.tree.nodes p).isSome
  node_item : ∀ e ∈ s.tree.nodes, (dget s.file_items e.1).isSome
  item_node : ∀ e ∈ s.file_items, (dget s.tree.nodes e.1).isSome
  item_path : ∀ e ∈ s.file_items, dget s.path_to_id e.2.path = some e.1
  path_item : ∀ e ∈ s.path_to_id, ∃ it, dget s.file_items e.2 = some it ∧ it.path = e.1
  path_ne_nil : ∀ e ∈ s.path_to_id, e.1 ≠ []
  parent_path : ∀ e ∈ s.file_items, ∀ n, dget s.tree.nodes e.1 = some n →
    (e.2.path.length ≤ 1 → n.parent = none) ∧
    (2 ≤ e.2.path.length →
      ∃ j, dget s.path_to_id e.2.path.dropLast = some j ∧ n.parent = some j)
  no_empty_folder : ∀ e ∈ s.file_items, e.2.type = "Folder" → some e.1 ≠ exempt →
    s.tree.get_children (some e.1) ≠ []

def Inv (s : AppState) : Prop := InvAt s none

/-- Nodes with identity above `a` — the measure showing the recursion fuel
of `get_all_children` suffices. -/
def countAbove (t : Treeview) (a : Nat) : Nat :=
  (t.nodes.filter (fun e => decide (a < e.1))).length

/-- The loop invariant of `add_path_to_tree` while it walks prefixes that
are already present: the full invariant holds and `current_parent` is the
node of `current_path` (or the root at the start). -/
def PhaseA (s : AppState) (cp : Option Nat) (cpath : PyPath) : Prop :=
  Inv s ∧ ((cpath = [] ∧ cp = none) ∨ ∃ c, cp = some c ∧ dget s.path_to_id cpath = some c)

/-- The loop invariant of `add_path_to_tree` after the first node gets
created: `current_parent` is a freshly created, still childless folder (the
one node exempt from `no_empty_folder`), and no longer prefix of the
inserted path is in the index yet. -/
def PhaseB (s : AppState) (fullPath : PyPath) (cp : Option Nat) (cpath : PyPath) : Prop :=
  ∃ c, cp = some c ∧ InvAt s (some c) ∧ dget s.path_to_id cpath = some c ∧
    s.tree.get_children (some c) = [] ∧
    (∀ q, q <+: fullPath → cpath.length < q.length → dget s.path_to_id q = none)

/-! ## Dictionary lemmas -/

theorem dget_dset_self {α β : Type} [DecidableEq α] (m : List (α × β)) (k : α) (v : β) :
    dget (dset m k v) k = some v := by
  induction m with
  | nil => simp [dget, dset]
  | cons e m ih =>
    by_cases h : e.1 = k <;> simp [dget, dset, h, ih]

theorem dget_dset_ne {α β : Type} [DecidableEq α] (m : List (α × β)) (k k' : α) (v : β)
    (h : k' ≠ k) : dget (dset m k v) k' = dget m k' := by
  induction m with
  | nil => simp [dget, dset, Ne.symm h]
  | cons e m ih =>
    by_cases he : e.1 = k
    · simp [dget, dset, he, Ne.symm h]
    · by_cases he' : e.1 = k' <;> simp [dget, dset, he, he', ih, h]

theorem dset_fresh {α β : Type} [DecidableEq α] (m : List (α × β)) (k : α) (v : β)
    (h : dget m k = none) : dset m k v = m ++ [(k, v)] := by
  induction m with
  | nil => simp [dset]
  | cons e m ih =>
    rw [dget] at h
    by_cases he : e.1 = k
    · simp [he] at h
    · rw [if_neg he] at h
      simp [dset, he, ih h]

theorem dget_ddel_self {α β : Type} [DecidableEq α] (m : List (α × β)) (k : α) :
    dget (ddel m k) k = none := by
  induction m with
  | nil => rfl
  | cons e m ih =>
    by_cases h : e.1 = k <;> simp [dget, ddel, h, ih]

theorem dget_ddel_ne {α β : Type} [DecidableEq α] (m : List (α × β)) (k k' : α)
    (h : k' ≠ k) : dget (ddel m k) k' = dget m k' := by
  induction m with
  | nil => rfl
  | cons e m ih =>
    by_cases he : e.1 = k
    · simp [dget, ddel, he, Ne.symm h, ih]
    · by_cases he' : e.1 = k' <;> simp [dget, ddel, he, he', ih, h]

theorem ddel_sublist {α β : Type} [DecidableEq α] (m : List (α × β)) (k : α) :
    (ddel m k).Sublist m := by
  induction m with
  | nil => simp [ddel]
  | cons e m ih =>
    by_cases h : e.1 = k
    · simp only [ddel, if_pos h]
      exact ih.cons e
    · simp only [ddel, if_neg h]
      exact ih.cons₂ e

theorem mem_ddel {α β : Type} [DecidableEq α] {m : List (α × β)} {k : α} {e : α × β} :
    e ∈ ddel m k ↔ e ∈ m ∧ e.1 ≠ k := by
  induction m with
  | nil => simp [ddel]
  | cons f m ih =>
    by_cases h : f.1 = k
    · rw [ddel, if_pos h]
      rw [ih]
      simp only [List.mem_cons]
      constructor
      · rintro ⟨hm, hk⟩
        exact ⟨Or.inr hm, hk⟩
      · rintro ⟨hm | hm, hk⟩
        · exact absurd (hm ▸ h) hk
        · exact ⟨hm, hk⟩
    · rw [ddel, if_neg h]
      simp only [List.mem_cons, ih]
      constructor
      · rintro (rfl | ⟨hm, hk⟩)
        · exact ⟨Or.inl rfl, h⟩
        · exact ⟨Or.inr hm, hk⟩
      · rintro ⟨rfl | hm, hk⟩
        · exact Or.inl rfl
        · exact Or.inr ⟨hm, hk⟩

theorem dget_eq_none {α β : Type} [DecidableEq α] (m : List (α × β)) (k : α) :
    dget m k = none ↔ ∀ e ∈ m, e.1 ≠ k := by
  induction m with
  | nil => simp [dget]
  | cons e m ih =>
    by_cases h : e.1 = k <;> simp [dget, h, ih]

theorem dget_mem {α β : Type} [DecidableEq α] {m : List (α × β)} {k : α} {v : β}
    (h : dget m k = some v) : (k, v) ∈ m := by
  induction m with
  | nil => simp [dget] at h
  | cons e m ih =>
    rw [dget] at h
    by_cases he : e.1 = k
    · rw [if_pos he] at h
      injection h with h
      have : e = (k, v) := by
        cases e
        simp_all
      rw [← this]
      exact List.mem_cons_self e m
    · rw [if_neg he] at h
      exact List.mem_cons_of_mem e (ih h)

theorem dget_of_mem {α β : Type} [DecidableEq α] {m : List (α × β)} {k : α} {v : β}
    (hn : (m.map Prod.fst).Nodup) (h : (k, v) ∈ m) : dget m k = some v := by
  induction m with
  | nil => simp at h
  | cons e m ih =>
    rw [List.map_cons, List.nodup_cons] at hn
    rcases List.mem_cons.mp h with h | h
    · rw [← h, dget, if_pos rfl]
    · have hk : e.1 ≠ k := by
        intro he
        apply hn.1
        rw [he]
        exact List.mem_map_of_mem Prod.fst h
      rw [dget, if_neg hk]
      exact ih hn.2 h

theorem dget_isSome_iff {α β : Type} [DecidableEq α] (m : List (α × β)) (k : α) :
    (dget m k).isSome = true ↔ ∃ e ∈ m, e.1 = k := by
  induction m with
  | nil => simp [dget]
  | cons e m ih =>
    by_cases h : e.1 = k <;> simp [dget, h, ih]

theorem dget_append {α β : Type} [DecidableEq α] (m1 m2 : List (α × β)) (k : α) :
    dget (m1 ++ m2) k = (dget m1 k).or (dget m2 k) := by
  induction m1 with
  | nil => simp [dget]
  | cons e m ih =>
    by_cases h : e.1 = k <;> simp [dget, h, ih]

/-! ## Path and filter lemmas -/

theorem sysDirWalkRev_eq_any (l : List String) :
    sysDirWalkRev l = l.any (fun c => decide (c ∈ system_dirs)) := by
  induction l with
  | nil => rfl
  | cons c rest ih => simp [sysDirWalkRev, ih]

theorem sysDirWalk_eq_any (p : PyPath) :
    sysDirWalk p = p.any (fun c => decide (c ∈ system_dirs)) := by
  rw [sysDirWalk, sysDirWalkRev_eq_any, List.any_reverse]

/-! ## Settings lemmas -/

theorem mem_setAdd (l : List String) (x y : String) :
    y ∈ setAdd l x ↔ y ∈ l ∨ y = x := by
  unfold setAdd
  by_cases h : x ∈ l
  · rw [if_pos h]
    constructor
    · exact Or.inl
    · rintro (hy | rfl)
      · exact hy
      · exact h
  · rw [if_neg h]
    simp

theorem mem_foldl_setAdd (exts : List String) (acc : List String) (y : String) :
    y ∈ exts.foldl setAdd acc ↔ y ∈ acc ∨ y ∈ exts := by
  induction exts generalizing acc with
  | nil => simp
  | cons e exts ih =>
    simp only [List.foldl_cons, ih, mem_setAdd, List.mem_cons]
    tauto

/-! ## Claim C4: the skip check -/

/-- C4, counterexample: the claim says a path with any component starting
with the hidden-file marker is rejected, but `_should_skip_path` only
tests `path.name` (the final component) against the marker, so a file
inside a hidden directory is not skipped. -/
theorem skip_hidden_ancestor_counterexample :
    ¬ ((∃ c ∈ ([".hidden", "a.py"] : PyPath), pyStartsWith c "." = true) →
        should_skip_path [".hidden", "a.py"] = true) := by
  decide

/-- C4, amended: the skip check rejects a path exactly when its final
component starts with the hidden-file marker, or when any component
(ancestor directory or the final name itself) is in the fixed exclusion
set, at any nesting depth. -/
theorem should_skip_path_characterization (p : PyPath) :
    should_skip_path p =
      (pyStartsWith (pathName p) "." || p.any (fun c => decide (c ∈ system_dirs))) := by
  rw [should_skip_path, sysDirWalk_eq_any]

/-! ## Claim C8: the prompt-free eligibility cases -/

/-- C8: `_is_valid_file` rejects a blacklisted extension; accepts a
filename that case-insensitively equals `readme.md` when the extension is
not blacklisted; and accepts an extension already in the allowed set when
it is not blacklisted — in each case without showing the interactive
prompt. -/
theorem is_valid_file_pure_cases (fs : FilterState) (p : PyPath) (a : Bool) :
    (extLowerOf p ∈ blacklisted_file_types →
      (is_valid_file fs p a).result = false ∧ (is_valid_file fs p a).prompted = false) ∧
    (extLowerOf p ∉ blacklisted_file_types → pyLower (pathName p) = "readme.md" →
      (is_valid_file fs p a).result = true ∧ (is_valid_file fs p a).prompted = false) ∧
    (extLowerOf p ∉ blacklisted_file_types → extLowerOf p ∈ fs.allowed_file_types →
      (is_valid_file fs p a).result = true ∧ (is_valid_file fs p a).prompted = false) := by
  simp only [extLowerOf]
  refine ⟨fun h => ?_, fun h hr => ?_, fun h hal => ?_⟩
  · simp [is_valid_file, h]
  · simp [is_valid_file, h, hr]
  · by_cases hr : pyLower (pathName p) = "readme.md"
    · simp [is_valid_file, h, hr]
    · simp [is_valid_file, h, hr, hal]

/-- C8, witness at a concrete blacklisted input. -/
theorem is_valid_file_pure_cases_witness :
    (is_valid_file ⟨[".py"], []⟩ ["a.png"] true).result = false ∧
    (is_valid_file ⟨[".py"], []⟩ ["a.png"] true).prompted = false :=
  (is_valid_file_pure_cases ⟨[".py"], []⟩ ["a.png"] true).1 (by decide)

/-! ## Claim C3: the extension decision cache -/

/-- C3: for an extension that is not blacklisted, not the readme filename
and not in the allowed set, the first eligibility query prompts exactly
once and caches the answer; any later query in the same session for the
same lower-cased extension (again not named readme) returns that cached
answer without prompting and without changing the state. -/
theorem extension_prompt_once_then_cached (fs : FilterState) (p1 : PyPath) (a : Bool)
    (hb : extLowerOf p1 ∉ blacklisted_file_types)
    (hr : pyLower (pathName p1) ≠ "readme.md")
    (ha : extLowerOf p1 ∉ fs.allowed_file_types)
    (hd : dget fs.extension_decisions (extLowerOf p1) = none) :
    (is_valid_file fs p1 a).prompted = true ∧
    (is_valid_file fs p1 a).result = a ∧
    (∀ p2 a2, extLowerOf p2 = extLowerOf p1 → pyLower (pathName p2) ≠ "readme.md" →
      (is_valid_file (is_valid_file fs p1 a).state p2 a2).prompted = false ∧
      (is_valid_file (is_valid_file fs p1 a).state p2 a2).result = a ∧
      (is_valid_file (is_valid_file fs p1 a).state p2 a2).state = (is_valid_file fs p1 a).state) := by
  simp only [extLowerOf] at hb ha hd ⊢
  cases a with
  | true =>
    have key : is_valid_file fs p1 true =
        { result := true, prompted := true, saved := true,
          state := { allowed_file_types :=
                       setAdd fs.allowed_file_types (pyLower (pySuffix (pathName p1)))
                     extension_decisions :=
                       fs.extension_decisions ++ [(pyLower (pySuffix (pathName p1)), true)] } } := by
      simp only [is_valid_file]
      rw [if_neg hb, if_neg hr, if_neg ha, hd]
      rfl
    rw [key]
    refine ⟨rfl, rfl, fun p2 a2 hext hr2 => ?_⟩
    simp only [extLowerOf] at hext
    have hmem : pyLower (pySuffix (pathName p1)) ∈
        setAdd fs.allowed_file_types (pyLower (pySuffix (pathName p1))) :=
      (mem_setAdd _ _ _).mpr (Or.inr rfl)
    simp only [is_valid_file, hext]
    rw [if_neg hb, if_neg hr2, if_pos hmem]
    exact ⟨rfl, rfl, rfl⟩
  | false =>
    have key : is_valid_file fs p1 false =
        { result := false, prompted := true, saved := false,
          state := { allowed_file_types := fs.allowed_file_types
                     extension_decisions :=
                       fs.extension_decisions ++ [(pyLower (pySuffix (pathName p1)), false)] } } := by
      simp only [is_valid_file]
      rw [if_neg hb, if_neg hr, if_neg ha, hd]
      rfl
    rw [key]
    refine ⟨rfl, rfl, fun p2 a2 hext hr2 => ?_⟩
    simp only [extLowerOf] at hext
    have hdec : dget (fs.extension_decisions ++ [(pyLower (pySuffix (pathName p1)), false)])
        (pyLower (pySuffix (pathName p1))) = some false := by
      rw [dget_append, hd]
      simp [dget]
    simp only [is_valid_file, hext]
    rw [if_neg hb, if_neg hr2, if_neg ha, hdec]
    exact ⟨rfl, rfl, rfl⟩

/-- C3, witness: a first query on `.xyz` prompts, the second does not. -/
theorem extension_prompt_once_then_cached_witness :
    (is_valid_file ⟨[".py"], []⟩ ["f.xyz"] true).prompted = true ∧
    (is_valid_file (is_valid_file ⟨[".py"], []⟩ ["f.xyz"] true).state ["g.xyz"] false).prompted
      = false := by
  have h := extension_prompt_once_then_cached ⟨[".py"], []⟩ ["f.xyz"] true
    (by decide) (by decide) (by decide) (by decide)
  exact ⟨h.1, (h.2.2 ["g.xyz"] false (by decide) (by decide)).1⟩

/-! ## Claims C2 and C10: the settings round trip -/

/-- C2, counterexample: saving a settings state whose allowed set lacks a
default extension and loading it on a fresh instance does not reproduce
the allowed set — `load_settings` adds the saved extensions to the
defaults instead of replacing them. -/
theorem settings_roundtrip_counterexample :
    ¬ ((load_settings freshSettings
          (some (save_settings ⟨true, true, []⟩))).xml_format_enabled = true ∧
       (load_settings freshSettings
          (some (save_settings ⟨true, true, []⟩))).filepath_enabled = true ∧
       ∀ x, x ∈ (load_settings freshSettings
          (some (save_settings ⟨true, true, []⟩))).allowed_file_types ↔
            x ∈ ([] : List String)) := by
  intro h
  have h1 : ".py" ∈ (load_settings freshSettings
      (some (save_settings ⟨true, true, []⟩))).allowed_file_types := by decide
  have h2 := (h.2.2 ".py").mp h1
  simp at h2

/-- C2, amended: the round trip reproduces both toggle values exactly, and
produces an allowed set equal (as a set) to the union of the defaults with
the saved set; in particular it reproduces the saved set whenever that set
contains the defaults. -/
theorem settings_roundtrip_union_defaults (st : SettingsState) :
    (load_settings freshSettings (some (save_settings st))).xml_format_enabled
        = st.xml_format_enabled ∧
    (load_settings freshSettings (some (save_settings st))).filepath_enabled
        = st.filepath_enabled ∧
    (∀ x, x ∈ (load_settings freshSettings (some (save_settings st))).allowed_file_types ↔
        x ∈ default_file_types ∨ x ∈ st.allowed_file_types) ∧
    ((∀ x ∈ default_file_types, x ∈ st.allowed_file_types) →
      ∀ x, x ∈ (load_settings freshSettings (some (save_settings st))).allowed_file_types ↔
        x ∈ st.allowed_file_types) := by
  have hmem : ∀ x,
      x ∈ (load_settings freshSettings (some (save_settings st))).allowed_file_types ↔
        x ∈ default_file_types ∨ x ∈ st.allowed_file_types := by
    intro x
    simp only [load_settings, save_settings, Option.getD_some]
    rw [mem_foldl_setAdd]
    exact Iff.rfl
  refine ⟨rfl, rfl, hmem, fun hsub x => ?_⟩
  rw [hmem x]
  constructor
  · rintro (hx | hx)
    · exact hsub x hx
    · exact hx
  · exact Or.inr

/-- C2, witness for the amended round trip on a set containing the
defaults. -/
theorem settings_roundtrip_union_defaults_witness :
    ".zzz" ∈ (load_settings freshSettings
        (some (save_settings ⟨false, true, ".zzz" :: default_file_types⟩))).allowed_file_types ↔
      ".zzz" ∈ (".zzz" :: default_file_types) :=
  (settings_roundtrip_union_defaults ⟨false, true, ".zzz" :: default_file_types⟩).2.2.2
    (by decide) ".zzz"

/-- C10: whatever the stored settings file holds, immediately after
`load_settings` the allowed set contains every built-in default — loading
unions the saved extensions into the defaults, so removing a default never
survives a restart. -/
theorem load_settings_superset_of_defaults (file : Option SettingsFile) (x : String)
    (hx : x ∈ default_file_types) :
    x ∈ (load_settings freshSettings file).allowed_file_types := by
  cases file with
  | none => exact hx
  | some f =>
    simp only [load_settings]
    rw [mem_foldl_setAdd]
    exact Or.inl hx

/-- C10, witness on a stored file that lists none of the defaults. -/
theorem load_settings_superset_of_defaults_witness :
    ".py" ∈ (load_settings freshSettings
        (some ⟨some false, some false, some [".zzz"]⟩)).allowed_file_types :=
  load_settings_superset_of_defaults (some ⟨some false, some false, some [".zzz"]⟩) ".py"
    (by decide)

/-! ## Aggregator lemmas -/

theorem processOne_spec (o : FmtOpts) (acc : ProcOut) (f : FileInput) :
    processOne o acc f =
      match f.read with
      | .isDir => acc
      | .text c =>
        { acc with
          py_contents := acc.py_contents ++ (if routesPy f then [fmtOf o (f, c)] else [])
          ts_contents := acc.ts_contents ++ (if routesTs f then [fmtOf o (f, c)] else [])
          css_contents := acc.css_contents ++ (if routesCss f then [fmtOf o (f, c)] else [])
          lua_contents := acc.lua_contents ++ (if routesLua f then [fmtOf o (f, c)] else [])
          readme_content := if isReadmeName f then fmtOf o (f, c) else acc.readme_content
          file_count := acc.file_count + 1
          total_characters := acc.total_characters + c.length }
      | .decodeError =>
        { acc with warnings :=
            acc.warnings ++ ["Unable to read " ++ pathStr f.parts ++ " (UTF-8). Skipping."] }
      | .otherError =>
        { acc with warnings :=
            acc.warnings ++ ["Error processing file " ++ pathStr f.parts] } := by
  cases hf : f.read with
  | isDir => simp [processOne, hf]
  | decodeError => simp [processOne, hf]
  | otherError => simp [processOne, hf]
  | text c =>
    simp only [processOne, hf]
    by_cases h1 : pyLower (pathName f.parts) = "readme.md"
    · simp [h1, routesPy, routesTs, routesCss, routesLua, isReadmeName, fmtOf]
    · by_cases h2 : pyLower (pySuffix (pathName f.parts)) = ".py"
      · simp [h1, h2, routesPy, routesTs, routesCss, routesLua, isReadmeName, inputExt, fmtOf]
      · by_cases h3 : pyLower (pySuffix (pathName f.parts)) = ".ts"
          ∨ pyLower (pySuffix (pathName f.parts)) = ".tsx"
        · rcases h3 with h3 | h3 <;>
            simp [h1, h2, h3, routesPy, routesTs, routesCss, routesLua, isReadmeName,
              inputExt, fmtOf]
        · by_cases h4 : pyLower (pySuffix (pathName f.parts)) = ".css"
          · simp [h1, h2, h3, h4, routesPy, routesTs, routesCss, routesLua, isReadmeName,
              inputExt, fmtOf, not_or]
          · by_cases h5 : pyLower (pySuffix (pathName f.parts)) = ".lua"
            · simp [h1, h2, h3, h4, h5, routesPy, routesTs, routesCss, routesLua,
                isReadmeName, inputExt, fmtOf, not_or]
            · push_neg at h3
              simp [h1, h2, h3.1, h3.2, h4, h5, routesPy, routesTs, routesCss, routesLua,
                isReadmeName, inputExt, fmtOf]

theorem readTexts_cons_text {f : FileInput} {c : String} (hf : f.read = .text c)
    (rest : List FileInput) : readTexts (f :: rest) = (f, c) :: readTexts rest := by
  simp [readTexts, hf]

theorem readTexts_cons_skip {f : FileInput} (hf : ∀ c, f.read ≠ .text c)
    (rest : List FileInput) : readTexts (f :: rest) = readTexts rest := by
  cases h : f.read with
  | text c => exact absurd h (hf c)
  | isDir => simp [readTexts, h]
  | decodeError => simp [readTexts, h]
  | otherError => simp [readTexts, h]

theorem foldl_processOne_py (o : FmtOpts) (inputs : List FileInput) (acc : ProcOut) :
    (inputs.foldl (processOne o) acc).py_contents
      = acc.py_contents
        ++ ((readTexts inputs).filter (fun fc => routesPy fc.1)).map (fmtOf o) := by
  induction inputs generalizing acc with
  | nil => simp [readTexts]
  | cons f rest ih =>
    rw [List.foldl_cons, ih, processOne_spec]
    cases hf : f.read with
    | text c =>
      rw [readTexts_cons_text hf]
      by_cases hr : routesPy f <;> simp [hr, List.filter_cons]
    | isDir => rw [readTexts_cons_skip (by simp [hf])]
    | decodeError => rw [readTexts_cons_skip (by simp [hf])]
    | otherError => rw [readTexts_cons_skip (by simp [hf])]

theorem foldl_processOne_ts (o : FmtOpts) (inputs : List FileInput) (acc : ProcOut) :
    (inputs.foldl (processOne o) acc).ts_contents
      = acc.ts_contents
        ++ ((readTexts inputs).filter (fun fc => routesTs fc.1)).map (fmtOf o) := by
  induction inputs generalizing acc with
  | nil => simp [readTexts]
  | cons f rest ih =>
    rw [List.foldl_cons, ih, processOne_spec]
    cases hf : f.read with
    | text c =>
      rw [readTexts_cons_text hf]
      by_cases hr : routesTs f <;> simp [hr, List.filter_cons]
    | isDir => rw [readTexts_cons_skip (by simp [hf])]
    | decodeError => rw [readTexts_cons_skip (by simp [hf])]
    | otherError => rw [readTexts_cons_skip (by simp [hf])]

theorem foldl_processOne_css (o : FmtOpts) (inputs : List FileInput) (acc : ProcOut) :
    (inputs.foldl (processOne o) acc).css_contents
      = acc.css_contents
        ++ ((readTexts inputs).filter (fun fc => routesCss fc.1)).map (fmtOf o) := by
  induction inputs generalizing acc with
  | nil => simp [readTexts]
  | cons f rest ih =>
    rw [List.foldl_cons, ih, processOne_spec]
    cases hf : f.read with
    | text c =>
      rw [readTexts_cons_text hf]
      by_cases hr : routesCss f <;> simp [hr, List.filter_cons]
    | isDir => rw [readTexts_cons_skip (by simp [hf])]
    | decodeError => rw [readTexts_cons_skip (by simp [hf])]
    | otherError => rw [readTexts_cons_skip (by simp [hf])]

theorem foldl_processOne_lua (o : FmtOpts) (inputs : List FileInput) (acc : ProcOut) :
    (inputs.foldl (processOne o) acc).lua_contents
      = acc.lua_contents
        ++ ((readTexts inputs).filter (fun fc => routesLua fc.1)).map (fmtOf o) := by
  induction inputs generalizing acc with
  | nil => simp [readTexts]
  | cons f rest ih =>
    rw [List.foldl_cons, ih, processOne_spec]
    cases hf : f.read with
    | text c =>
      rw [readTexts_cons_text hf]
      by_cases hr : routesLua f <;> simp [hr, List.filter_cons]
    | isDir => rw [readTexts_cons_skip (by simp [hf])]
    | decodeError => rw [readTexts_cons_skip (by simp [hf])]
    | otherError => rw [readTexts_cons_skip (by simp [hf])]

theorem foldl_processOne_readme (o : FmtOpts) (inputs : List FileInput) (acc : ProcOut) :
    (inputs.foldl (processOne o) acc).readme_content
      = ((readTexts inputs).filter (fun fc => isReadmeName fc.1)).foldl
          (fun _ fc => fmtOf o fc) acc.readme_content := by
  induction inputs generalizing acc with
  | nil => simp [readTexts]
  | cons f rest ih =>
    rw [List.foldl_cons, ih, processOne_spec]
    cases hf : f.read with
    | text c =>
      rw [readTexts_cons_text hf]
      by_cases hr : isReadmeName f <;> simp [hr, List.filter_cons]
    | isDir => rw [readTexts_cons_skip (by simp [hf])]
    | decodeError => rw [readTexts_cons_skip (by simp [hf])]
    | otherError => rw [readTexts_cons_skip (by simp [hf])]

theorem foldl_processOne_count (o : FmtOpts) (inputs : List FileInput) (acc : ProcOut) :
    (inputs.foldl (processOne o) acc).file_count
      = acc.file_count + (readTexts inputs).length := by
  induction inputs generalizing acc with
  | nil => simp [readTexts]
  | cons f rest ih =>
    rw [List.foldl_cons, ih, processOne_spec]
    cases hf : f.read with
    | text c =>
      rw [readTexts_cons_text hf]
      simp
      omega
    | isDir => rw [readTexts_cons_skip (by simp [hf])]
    | decodeError => rw [readTexts_cons_skip (by simp [hf])]
    | otherError => rw [readTexts_cons_skip (by simp [hf])]

theorem foldl_processOne_chars (o : FmtOpts) (inputs : List FileInput) (acc : ProcOut) :
    (inputs.foldl (processOne o) acc).total_characters
      = acc.total_characters + ((readTexts inputs).map (fun fc => fc.2.length)).sum := by
  induction inputs generalizing acc with
  | nil => simp [readTexts]
  | cons f rest ih =>
    rw [List.foldl_cons, ih, processOne_spec]
    cases hf : f.read with
    | text c =>
      rw [readTexts_cons_text hf]
      simp
      omega
    | isDir => rw [readTexts_cons_skip (by simp [hf])]
    | decodeError => rw [readTexts_cons_skip (by simp [hf])]
    | otherError => rw [readTexts_cons_skip (by simp [hf])]

theorem foldl_processOne_warnings_mono (o : FmtOpts) (inputs : List FileInput)
    (acc : ProcOut) (w : String) (hw : w ∈ acc.warnings) :
    w ∈ (inputs.foldl (processOne o) acc).warnings := by
  induction inputs generalizing acc with
  | nil => exact hw
  | cons f rest ih =>
    rw [List.foldl_cons]
    apply ih
    rw [processOne_spec]
    cases f.read <;> simp [hw]

theorem readTexts_length (inputs : List FileInput) :
    (readTexts inputs).length = (inputs.filter isReadableText).length := by
  induction inputs with
  | nil => rfl
  | cons f rest ih =>
    cases hf : f.read with
    | text c =>
      rw [readTexts_cons_text hf]
      simp [List.filter_cons, isReadableText]
      cases f
      simp_all [isReadableText]
    | isDir =>
      rw [readTexts_cons_skip (by simp [hf])]
      cases f
      simp_all [List.filter_cons, isReadableText, ih]
    | decodeError =>
      rw [readTexts_cons_skip (by simp [hf])]
      cases f
      simp_all [List.filter_cons, isReadableText, ih]
    | otherError =>
      rw [readTexts_cons_skip (by simp [hf])]
      cases f
      simp_all [List.filter_cons, isReadableText, ih]

theorem readTexts_filter_decode (inputs : List FileInput) :
    readTexts (inputs.filter (fun f => !isDecodeErrorInput f)) = readTexts inputs := by
  induction inputs with
  | nil => rfl
  | cons f rest ih =>
    cases hf : f.read with
    | text c =>
      have hd : isDecodeErrorInput f = false := by
        cases f
        simp_all [isDecodeErrorInput]
      rw [List.filter_cons]
      simp only [hd, Bool.not_false, if_pos]
      rw [readTexts_cons_text hf, readTexts_cons_text hf, ih]
    | isDir =>
      have hd : isDecodeErrorInput f = false := by
        cases f
        simp_all [isDecodeErrorInput]
      rw [List.filter_cons]
      simp only [hd, Bool.not_false, if_pos]
      rw [readTexts_cons_skip (by simp [hf]), readTexts_cons_skip (by simp [hf]), ih]
    | decodeError =>
      have hd : isDecodeErrorInput f = true := by
        cases f
        simp_all [isDecodeErrorInput]
      rw [List.filter_cons]
      simp only [hd, Bool.not_true]
      rw [if_neg (by simp)]
      rw [readTexts_cons_skip (by simp [hf]), ih]
    | otherError =>
      have hd : isDecodeErrorInput f = false := by
        cases f
        simp_all [isDecodeErrorInput]
      rw [List.filter_cons]
      simp only [hd, Bool.not_false, if_pos]
      rw [readTexts_cons_skip (by simp [hf]), readTexts_cons_skip (by simp [hf]), ih]

theorem append_ne_empty_left (a b : String) (h : a ≠ "") : a ++ b ≠ "" := by
  intro he
  apply h
  apply String.ext
  have hd := congrArg String.data he
  rw [String.data_append] at hd
  exact (List.append_eq_nil.mp hd).1

theorem pyJoin_cons (sep x : String) (l : List String) (hl : l ≠ []) :
    pyJoin sep (x :: l) = x ++ sep ++ pyJoin sep l := by
  cases l with
  | nil => exact absurd rfl hl
  | cons y r => rfl

theorem pyJoin_ne_empty (sep : String) (l : List String)
    (h : ∀ x ∈ l, x ≠ "") (hl : l ≠ []) : pyJoin sep l ≠ "" := by
  cases l with
  | nil => exact absurd rfl hl
  | cons x r =>
    cases r with
    | nil => exact h x (List.mem_cons_self x [])
    | cons y r2 =>
      rw [pyJoin_cons sep x (y :: r2) (by simp)]
      exact append_ne_empty_left _ _
        (append_ne_empty_left _ _ (h x (List.mem_cons_self x _)))

theorem pyJoin_append (sep : String) (l1 l2 : List String) (h1 : l1 ≠ []) (h2 : l2 ≠ []) :
    pyJoin sep (l1 ++ l2) = pyJoin sep l1 ++ sep ++ pyJoin sep l2 := by
  induction l1 with
  | nil => exact absurd rfl h1
  | cons x rest ih =>
    cases rest with
    | nil =>
      cases l2 with
      | nil => exact absurd rfl h2
      | cons y r2 =>
        rw [List.cons_append, List.nil_append]
        exact pyJoin_cons sep x (y :: r2) (by simp)
    | cons z rest2 =>
      rw [List.cons_append, pyJoin_cons sep x ((z :: rest2) ++ l2) (by simp),
        ih (by simp), pyJoin_cons sep x (z :: rest2) (by simp)]
      simp [String.append_assoc]

theorem pyJoin_groups (sep : String) (groups : List (List String))
    (h : ∀ g ∈ groups, ∀ x ∈ g, x ≠ "") :
    pyJoin sep ((groups.map (pyJoin sep)).filter (fun s => s ≠ ""))
      = pyJoin sep groups.flatten := by
  induction groups with
  | nil => rfl
  | cons g gs ih =>
    have hg : ∀ x ∈ g, x ≠ "" := h g (List.mem_cons_self g gs)
    have hgs : ∀ g2 ∈ gs, ∀ x ∈ g2, x ≠ "" := fun g2 hg2 => h g2 (List.mem_cons_of_mem g hg2)
    rw [List.map_cons, List.filter_cons, List.flatten_cons]
    cases hge : g with
    | nil =>
      simp only [pyJoin]
      rw [if_neg (by simp)]
      rw [List.nil_append]
      exact ih hgs
    | cons x gr =>
      rw [← hge]
      have hgne : g ≠ [] := by rw [hge]; simp
      have hjne : pyJoin sep g ≠ "" := pyJoin_ne_empty sep g hg hgne
      rw [if_pos (by simpa using hjne)]
      by_cases hfl : gs.flatten = []
      · have hmapnil : (gs.map (pyJoin sep)).filter (fun s => s ≠ "") = [] := by
          rw [List.filter_eq_nil_iff]
          intro s hs
          rw [List.mem_map] at hs
          obtain ⟨g2, hg2, rfl⟩ := hs
          have : g2 = [] := by
            have := List.flatten_eq_nil_iff.mp hfl
            exact this g2 hg2
          simp [this, pyJoin]
        rw [hmapnil, hfl, List.append_nil]
        rfl
      · have hfil : (gs.map (pyJoin sep)).filter (fun s => s ≠ "") ≠ [] := by
          intro hnil
          have : pyJoin sep gs.flatten = "" := by
            rw [← ih hgs, hnil]
            rfl
          exact pyJoin_ne_empty sep gs.flatten
            (fun x hx => by
              rw [List.mem_flatten] at hx
              obtain ⟨g2, hg2, hxg⟩ := hx
              exact hgs g2 hg2 x hxg) hfl this
        rw [pyJoin_cons sep _ _ hfil, ih hgs, ← pyJoin_append sep g gs.flatten hgne hfl]

theorem routes_one (f : FileInput) :
    (if routesPy f then 1 else 0) + (if routesTs f then 1 else 0)
      + (if routesCss f then 1 else 0) + (if routesLua f then 1 else 0)
      + (if isReadmeName f then 1 else 0) = 1 := by
  by_cases h1 : pyLower (pathName f.parts) = "readme.md"
  · simp [routesPy, routesTs, routesCss, routesLua, isReadmeName, h1]
  · by_cases h2 : pyLower (pySuffix (pathName f.parts)) = ".py"
    · simp [routesPy, routesTs, routesCss, routesLua, isReadmeName, inputExt, h1, h2]
    · by_cases h3 : pyLower (pySuffix (pathName f.parts)) = ".ts"
        ∨ pyLower (pySuffix (pathName f.parts)) = ".tsx"
      · rcases h3 with h3 | h3 <;>
          simp [routesPy, routesTs, routesCss, routesLua, isReadmeName, inputExt, h1, h3]
      · push_neg at h3
        by_cases h4 : pyLower (pySuffix (pathName f.parts)) = ".css"
        · simp [routesPy, routesTs, routesCss, routesLua, isReadmeName, inputExt, h1, h4]
        · by_cases h5 : pyLower (pySuffix (pathName f.parts)) = ".lua"
          · simp [routesPy, routesTs, routesCss, routesLua, isReadmeName, inputExt,
              h1, h3.1, h3.2, h4, h5]
          · simp [routesPy, routesTs, routesCss, routesLua, isReadmeName, inputExt,
              h1, h2, h3.1, h3.2, h4, h5]

theorem filters_length (L : List (FileInput × String)) :
    ((L.filter (fun fc => routesPy fc.1)).length + (L.filter (fun fc => routesTs fc.1)).length
      + (L.filter (fun fc => routesCss fc.1)).length
      + (L.filter (fun fc => routesLua fc.1)).length
      + (L.filter (fun fc => isReadmeName fc.1)).length) = L.length := by
  induction L with
  | nil => rfl
  | cons fc L ih =>
    have h := routes_one fc.1
    simp only [List.filter_cons, apply_ite List.length, List.length_cons]
    split_ifs at h ⊢ <;> omega

theorem fmtOf_xml (o : FmtOpts) (fc : FileInput × String) (hxml : o.xml_format_enabled = true) :
    fmtOf o fc = "<file_info>\n" ++
      ((if o.filepath_enabled then "  <path>" ++ (pathStr fc.1.parts ++ "</path>\n") else "")
        ++ ("  <type>" ++ (get_file_type_text fc.1.parts
          ++ ("</type>\n</file_info>\n<content>\n" ++ (fc.2 ++ "\n</content>\n"))))) := by
  simp only [fmtOf, format_content, hxml, if_true]
  simp [String.append_assoc]

theorem fmtOf_xml_ne_empty (o : FmtOpts) (fc : FileInput × String)
    (hxml : o.xml_format_enabled = true) : fmtOf o fc ≠ "" := by
  rw [fmtOf_xml o fc hxml]
  exact append_ne_empty_left _ _ (by decide)

theorem warning_recorded (o : FmtOpts) (inputs : List FileInput) (acc : ProcOut)
    (f : FileInput) (hf : f ∈ inputs) (hd : f.read = ReadResult.decodeError) :
    ("Unable to read " ++ pathStr f.parts ++ " (UTF-8). Skipping.")
      ∈ (inputs.foldl (processOne o) acc).warnings := by
  induction inputs generalizing acc with
  | nil => simp at hf
  | cons g rest ih =>
    rw [List.foldl_cons]
    rcases List.mem_cons.mp hf with rfl | hf2
    · apply foldl_processOne_warnings_mono
      rw [processOne_spec, hd]
      simp
    · exact ih _ hf2

theorem pyJoin_five_groups (sep : String) (B1 B2 B3 B4 B5 : List String)
    (h : ∀ x ∈ B1 ++ B2 ++ B3 ++ B4 ++ B5, x ≠ "") :
    pyJoin sep (([pyJoin sep B1, pyJoin sep B2, pyJoin sep B3, pyJoin sep B4,
        pyJoin sep B5]).filter (fun s => s ≠ ""))
      = pyJoin sep (B1 ++ B2 ++ B3 ++ B4 ++ B5) := by
  have hAll : ∀ g ∈ [B1, B2, B3, B4, B5], ∀ x ∈ g, x ≠ "" := by
    intro g hg x hx
    apply h
    simp only [List.mem_cons, List.not_mem_nil, or_false] at hg
    simp only [List.mem_append]
    rcases hg with rfl | rfl | rfl | rfl | rfl
    · exact Or.inl (Or.inl (Or.inl (Or.inl hx)))
    · exact Or.inl (Or.inl (Or.inl (Or.inr hx)))
    · exact Or.inl (Or.inl (Or.inr hx))
    · exact Or.inl (Or.inr hx)
    · exact Or.inr hx
  have hgr := pyJoin_groups sep [B1, B2, B3, B4, B5] hAll
  simp only [List.map_cons, List.map_nil] at hgr
  rw [hgr]
  congr 1
  simp [List.append_assoc]

/-! ## Claim C6: unreadable files never abort the batch -/

/-- C6: `process_files` always completes; `file_count` counts exactly the
successfully read files; each `UnicodeDecodeError` file leaves a warning;
and dropping the undecodable files from the input changes none of the
content buckets, the readme slot, the count, or the character total. -/
theorem process_files_skips_unreadable (o : FmtOpts) (inputs : List FileInput) :
    (process_files o inputs).file_count = (inputs.filter isReadableText).length ∧
    (∀ f ∈ inputs, f.read = ReadResult.decodeError →
      ("Unable to read " ++ pathStr f.parts ++ " (UTF-8). Skipping.")
        ∈ (process_files o inputs).warnings) ∧
    (process_files o (inputs.filter (fun f => !isDecodeErrorInput f))).py_contents
        = (process_files o inputs).py_contents ∧
    (process_files o (inputs.filter (fun f => !isDecodeErrorInput f))).ts_contents
        = (process_files o inputs).ts_contents ∧
    (process_files o (inputs.filter (fun f => !isDecodeErrorInput f))).css_contents
        = (process_files o inputs).css_contents ∧
    (process_files o (inputs.filter (fun f => !isDecodeErrorInput f))).lua_contents
        = (process_files o inputs).lua_contents ∧
    (process_files o (inputs.filter (fun f => !isDecodeErrorInput f))).readme_content
        = (process_files o inputs).readme_content ∧
    (process_files o (inputs.filter (fun f => !isDecodeErrorInput f))).file_count
        = (process_files o inputs).file_count ∧
    (process_files o (inputs.filter (fun f => !isDecodeErrorInput f))).total_characters
        = (process_files o inputs).total_characters := by
  refine ⟨?_, ?_, ?_, ?_, ?_, ?_, ?_, ?_, ?_⟩
  · rw [process_files, foldl_processOne_count, readTexts_length]
    simp [emptyProcOut]
  · intro f hf hd
    exact warning_recorded o inputs emptyProcOut f hf hd
  · rw [process_files, process_files, foldl_processOne_py, foldl_processOne_py,
      readTexts_filter_decode]
  · rw [process_files, process_files, foldl_processOne_ts, foldl_processOne_ts,
      readTexts_filter_decode]
  · rw [process_files, process_files, foldl_processOne_css, foldl_processOne_css,
      readTexts_filter_decode]
  · rw [process_files, process_files, foldl_processOne_lua, foldl_processOne_lua,
      readTexts_filter_decode]
  · rw [process_files, process_files, foldl_processOne_readme, foldl_processOne_readme,
      readTexts_filter_decode]
  · rw [process_files, process_files, foldl_processOne_count, foldl_processOne_count,
      readTexts_filter_decode]
  · rw [process_files, process_files, foldl_processOne_chars, foldl_processOne_chars,
      readTexts_filter_decode]

/-- C6, witness: a batch with one good file and one undecodable file ends
with the right count and the warning recorded. -/
theorem process_files_skips_unreadable_witness :
    (process_files ⟨true, true⟩
        [⟨["r", "good.py"], ReadResult.text "x"⟩,
         ⟨["r", "bad.bin"], ReadResult.decodeError⟩]).file_count
      = ([(⟨["r", "good.py"], ReadResult.text "x"⟩ : FileInput),
          ⟨["r", "bad.bin"], ReadResult.decodeError⟩].filter isReadableText).length ∧
    ("Unable to read " ++ pathStr ["r", "bad.bin"] ++ " (UTF-8). Skipping.")
      ∈ (process_files ⟨true, true⟩
          [⟨["r", "good.py"], ReadResult.text "x"⟩,
           ⟨["r", "bad.bin"], ReadResult.decodeError⟩]).warnings := by
  have h := process_files_skips_unreadable ⟨true, true⟩
    [⟨["r", "good.py"], ReadResult.text "x"⟩, ⟨["r", "bad.bin"], ReadResult.decodeError⟩]
  exact ⟨h.1, h.2.1 ⟨["r", "bad.bin"], ReadResult.decodeError⟩ (by decide) rfl⟩

/-! ## Claim C7: the shape of the aggregated blob -/

/-- C7, counterexample: with two readme-named files in the batch both are
counted in `file_count`, but the readme slot keeps only the last one, so
the blob holds one structured block while two files were processed — the
claim as stated (one structured block per processed file) fails. -/
theorem aggregate_two_readmes_counterexample :
    countOccurrences
        (combined_content (process_files ⟨true, true⟩
          [⟨["a", "README.md"], ReadResult.text "x"⟩,
           ⟨["b", "README.md"], ReadResult.text "y"⟩]))
        "<file_info>" = 1 ∧
    (process_files ⟨true, true⟩
        [⟨["a", "README.md"], ReadResult.text "x"⟩,
         ⟨["b", "README.md"], ReadResult.text "y"⟩]).file_count = 2 := by
  exact ⟨by decide, by decide⟩

/-- C7, amended: in structured mode, for a batch holding at most one
readme-named readable file, the blob is the join of the per-category
buckets in the fixed order py, ts, css, lua with the readme block last;
there is exactly one structured block per processed file
(`blocks.length = file_count`) and every block opens with the
`file_info` header. -/
theorem aggregate_structured_blocks (o : FmtOpts) (inputs : List FileInput)
    (hxml : o.xml_format_enabled = true)
    (hone : ((readTexts inputs).filter (fun fc => isReadmeName fc.1)).length ≤ 1) :
    ∃ blocks : List String,
      blocks =
        ((readTexts inputs).filter (fun fc => routesPy fc.1)).map (fmtOf o)
          ++ ((readTexts inputs).filter (fun fc => routesTs fc.1)).map (fmtOf o)
          ++ ((readTexts inputs).filter (fun fc => routesCss fc.1)).map (fmtOf o)
          ++ ((readTexts inputs).filter (fun fc => routesLua fc.1)).map (fmtOf o)
          ++ ((readTexts inputs).filter (fun fc => isReadmeName fc.1)).map (fmtOf o) ∧
      combined_content (process_files o inputs) = pyJoin "\n\n" blocks ∧
      blocks.length = (process_files o inputs).file_count ∧
      (∀ b ∈ blocks, ∃ r, b = "<file_info>\n" ++ r) := by
  refine ⟨_, rfl, ?_, ?_, ?_⟩
  · have hread : ((readTexts inputs).filter (fun fc => isReadmeName fc.1)).foldl
        (fun _ fc => fmtOf o fc) ""
        = pyJoin "\n\n"
            (((readTexts inputs).filter (fun fc => isReadmeName fc.1)).map (fmtOf o)) := by
      rcases hl : (readTexts inputs).filter (fun fc => isReadmeName fc.1) with _ | ⟨fc, rest⟩
      · rw [hl]
        rfl
      · rw [hl] at hone
        simp only [List.length_cons] at hone
        have hrest : rest = [] := List.eq_nil_of_length_eq_zero (by omega)
        subst hrest
        rw [hl]
        rfl
    rw [combined_content, process_files]
    rw [foldl_processOne_py, foldl_processOne_ts, foldl_processOne_css,
      foldl_processOne_lua, foldl_processOne_readme]
    simp only [emptyProcOut, List.nil_append]
    rw [hread]
    apply pyJoin_five_groups
    intro x hx
    simp only [List.mem_append, List.mem_map] at hx
    rcases hx with ((((⟨fc, _, rfl⟩ | ⟨fc, _, rfl⟩) | ⟨fc, _, rfl⟩) | ⟨fc, _, rfl⟩)
      | ⟨fc, _, rfl⟩) <;> exact fmtOf_xml_ne_empty o fc hxml
  · simp only [List.length_append, List.length_map]
    rw [process_files, foldl_processOne_count]
    have h := filters_length (readTexts inputs)
    simp only [emptyProcOut]
    omega
  · intro b hb
    simp only [List.mem_append, List.mem_map] at hb
    rcases hb with ((((⟨fc, _, rfl⟩ | ⟨fc, _, rfl⟩) | ⟨fc, _, rfl⟩) | ⟨fc, _, rfl⟩)
      | ⟨fc, _, rfl⟩) <;> exact ⟨_, fmtOf_xml o fc hxml⟩

/-- C7, witness: a `.py` file plus one readme give two blocks and
`file_count = 2`. -/
theorem aggregate_structured_blocks_witness :
    (process_files ⟨true, true⟩
        [⟨["a", "x.py"], ReadResult.text "p"⟩,
         ⟨["b", "README.md"], ReadResult.text "r"⟩]).file_count = 2 := by
  obtain ⟨blocks, hb, hcomb, hlen, hshape⟩ := aggregate_structured_blocks ⟨true, true⟩
    [⟨["a", "x.py"], ReadResult.text "p"⟩, ⟨["b", "README.md"], ReadResult.text "r"⟩]
    rfl (by decide)
  rw [← hlen, hb]
  decide

/-! ## Treeview and descendant lemmas -/

theorem ddel_eq_filter {α β : Type} [DecidableEq α] (m : List (α × β)) (k : α) :
    ddel m k = m.filter (fun e => decide (e.1 ≠ k)) := by
  induction m with
  | nil => rfl
  | cons e m ih =>
    by_cases h : e.1 = k <;> simp [ddel, List.filter_cons, h, ih]

theorem dget_filter_keys {α β : Type} [DecidableEq α] (m : List (α × β)) (q : α → Bool)
    (k : α) :
    dget (m.filter (fun e => q e.1)) k = if q k then dget m k else none := by
  induction m with
  | nil => simp [dget]
  | cons e m ih =>
    by_cases he : e.1 = k
    · subst he
      by_cases hq : q e.1 <;> simp [List.filter_cons, hq, dget, ih]
    · by_cases hq : q e.1 <;> simp [List.filter_cons, hq, dget, he, ih]

theorem length_filter_mono {α : Type} (l : List α) (p q : α → Bool)
    (h : ∀ x ∈ l, p x = true → q x = true) :
    (l.filter p).length ≤ (l.filter q).length := by
  induction l with
  | nil => simp
  | cons a l ih =>
    have ih' := ih (fun x hx => h x (List.mem_cons_of_mem a hx))
    by_cases hp : p a
    · rw [List.filter_cons, if_pos (by simpa using hp),
        List.filter_cons, if_pos (by simpa using h a (List.mem_cons_self a l) hp)]
      simpa using ih'
    · rw [List.filter_cons, if_neg (by simpa using hp)]
      by_cases hq : q a
      · rw [List.filter_cons, if_pos (by simpa using hq)]
        simp only [List.length_cons]
        omega
      · rw [List.filter_cons, if_neg (by simpa using hq)]
        exact ih'

theorem length_filter_lt {α : Type} (l : List α) (p q : α → Bool) (x : α)
    (hx : x ∈ l) (hpx : p x = false) (hqx : q x = true)
    (h : ∀ y ∈ l, p y = true → q y = true) :
    (l.filter p).length < (l.filter q).length := by
  obtain ⟨l1, l2, rfl⟩ := List.append_of_mem hx
  have h1 := length_filter_mono l1 p q (fun y hy => h y (by simp [hy]))
  have h2 := length_filter_mono l2 p q (fun y hy => h y (by simp [hy]))
  rw [List.filter_append, List.filter_append, List.filter_cons, List.filter_cons,
    if_neg (by simp [hpx]), if_pos (by simp [hqx])]
  simp only [List.length_append, List.length_cons]
  omega

theorem existsItem_iff (t : Treeview) (i : Nat) :
    t.existsItem i = true ↔ ∃ n, dget t.nodes i = some n := by
  rw [Treeview.existsItem, Option.isSome_iff_exists]

theorem mem_get_children {t : Treeview} {pid : Option Nat} {j : Nat} :
    j ∈ t.get_children pid ↔ ∃ n, (j, n) ∈ t.nodes ∧ n.parent = pid := by
  rw [Treeview.get_children]
  simp only [List.mem_map, List.mem_filter]
  constructor
  · rintro ⟨e, ⟨he, hp⟩, rfl⟩
    exact ⟨e.2, by simpa using he, by simpa using hp⟩
  · rintro ⟨n, hn, hp⟩
    exact ⟨(j, n), ⟨hn, by simpa using hp⟩, rfl⟩

theorem dget_delete (t : Treeview) (i k : Nat) :
    dget (t.delete i).nodes k =
      if k ∈ i :: t.get_all_children i then none else dget t.nodes k := by
  simp only [Treeview.delete]
  rw [dget_filter_keys t.nodes (fun x => decide (x ∉ i :: t.get_all_children i)) k]
  by_cases hk : k ∈ i :: t.get_all_children i <;> simp [hk]

theorem existsItem_delete_self (t : Treeview) (i : Nat) :
    (t.delete i).existsItem i = false := by
  rw [Treeview.existsItem, dget_delete, if_pos (List.mem_cons_self _ _)]
  rfl

theorem existsItem_delete_mono {t : Treeview} {i x : Nat}
    (h : (t.delete i).existsItem x = true) : t.existsItem x = true := by
  rw [Treeview.existsItem, dget_delete] at h
  by_cases hx : x ∈ i :: t.get_all_children i
  · rw [if_pos hx] at h
    simp at h
  · rw [if_neg hx] at h
    exact h

theorem hasParent_unique {t : Treeview} {c p q : Nat}
    (hp : HasParent t c p) (hq : HasParent t c q) : p = q := by
  obtain ⟨n, hn, hnp⟩ := hp
  obtain ⟨n', hn', hnp'⟩ := hq
  rw [hn] at hn'
  injection hn' with h
  rw [← h] at hnp'
  rw [hnp] at hnp'
  injection hnp'

theorem desc_isSome {t : Treeview} {a x : Nat} (h : Desc t a x) :
    (dget t.nodes x).isSome = true := by
  induction h with
  | base hp =>
    obtain ⟨n, hn, _⟩ := hp
    simp [hn]
  | step _ _ ih => exact ih

theorem hasParent_lt {t : Treeview}
    (hlt : ∀ e ∈ t.nodes, ∀ p, e.2.parent = some p → p < e.1)
    {c p : Nat} (h : HasParent t c p) : p < c := by
  obtain ⟨n, hn, hnp⟩ := h
  exact hlt (c, n) (dget_mem hn) p hnp

theorem desc_lt {t : Treeview}
    (hlt : ∀ e ∈ t.nodes, ∀ p, e.2.parent = some p → p < e.1)
    {a x : Nat} (h : Desc t a x) : a < x := by
  induction h with
  | base hp => exact hasParent_lt hlt hp
  | step hp _ ih => exact Nat.lt_trans (hasParent_lt hlt hp) ih

theorem desc_extend {t : Treeview} {a m c : Nat}
    (h : Desc t a m) (hc : HasParent t c m) : Desc t a c := by
  induction h with
  | base hp => exact Desc.step hp (Desc.base hc)
  | step hp _ ih => exact Desc.step hp (ih hc)

theorem desc_inversion {t : Treeview} {a x : Nat} (h : Desc t a x) :
    ∃ m, HasParent t x m ∧ (m = a ∨ Desc t a m) := by
  induction h with
  | base hp => exact ⟨_, hp, Or.inl rfl⟩
  | step hp hd ih =>
    obtain ⟨m, hm, hma⟩ := ih
    rcases hma with rfl | hd2
    · exact ⟨m, hm, Or.inr (Desc.base hp)⟩
    · exact ⟨m, hm, Or.inr (Desc.step hp hd2)⟩

theorem hasParent_of_mem_children {t : Treeview}
    (hnd : (t.nodes.map Prod.fst).Nodup) {j a : Nat}
    (h : j ∈ t.get_children (some a)) : HasParent t j a := by
  obtain ⟨n, hn, hp⟩ := mem_get_children.mp h
  exact ⟨n, dget_of_mem hnd hn, hp⟩

theorem mem_children_of_hasParent {t : Treeview} {j a : Nat}
    (h : HasParent t j a) : j ∈ t.get_children (some a) := by
  obtain ⟨n, hn, hp⟩ := h
  exact mem_get_children.mpr ⟨n, dget_mem hn, hp⟩

theorem gac_fuel_sound {t : Treeview} (hnd : (t.nodes.map Prod.fst).Nodup) :
    ∀ (f : Nat) {a x : Nat}, x ∈ getAllChildrenFuel t f a → Desc t a x := by
  intro f
  induction f with
  | zero => intro a x h; simp [getAllChildrenFuel] at h
  | succ f ih =>
    intro a x h
    rw [getAllChildrenFuel, List.mem_flatMap] at h
    obtain ⟨c, hc, hx⟩ := h
    have hpc : HasParent t c a := hasParent_of_mem_children hnd hc
    rcases List.mem_cons.mp hx with rfl | hx2
    · exact Desc.base hpc
    · exact Desc.step hpc (ih hx2)

theorem countAbove_le (t : Treeview) (a : Nat) : countAbove t a ≤ t.nodes.length :=
  List.length_filter_le _ _

theorem countAbove_lt_of_child {t : Treeview}
    (hlt : ∀ e ∈ t.nodes, ∀ p, e.2.parent = some p → p < e.1)
    {a c : Nat} (h : HasParent t c a) : countAbove t c < countAbove t a := by
  obtain ⟨n, hn, hnp⟩ := h
  have hac : a < c := hlt (c, n) (dget_mem hn) a hnp
  exact length_filter_lt t.nodes _ _ (c, n) (dget_mem hn)
    (by simp) (by simp [hac]) (fun y _ hy => by
      simp at hy ⊢
      omega)

theorem gac_fuel_complete {t : Treeview}
    (hlt : ∀ e ∈ t.nodes, ∀ p, e.2.parent = some p → p < e.1)
    {a x : Nat} (h : Desc t a x) :
    ∀ f, countAbove t a ≤ f → x ∈ getAllChildrenFuel t f a := by
  induction h with
  | base hp =>
    rename_i a c
    intro f hf
    have h1 : 1 ≤ countAbove t a := by
      obtain ⟨n, hn, hnp⟩ := hp
      have : (c, n) ∈ t.nodes.filter (fun e => decide (a < e.1)) := by
        rw [List.mem_filter]
        exact ⟨dget_mem hn, by simp [hlt (c, n) (dget_mem hn) a hnp]⟩
      have := List.length_pos_of_mem this
      exact this
    obtain ⟨f', rfl⟩ : ∃ f', f = f' + 1 := ⟨f - 1, by omega⟩
    rw [getAllChildrenFuel, List.mem_flatMap]
    exact ⟨c, mem_children_of_hasParent hp, List.mem_cons_self _ _⟩
  | step hp hd ih =>
    rename_i a c x
    intro f hf
    have hca : countAbove t c < countAbove t a := countAbove_lt_of_child hlt hp
    obtain ⟨f', rfl⟩ : ∃ f', f = f' + 1 := ⟨f - 1, by omega⟩
    rw [getAllChildrenFuel, List.mem_flatMap]
    refine ⟨c, mem_children_of_hasParent hp, List.mem_cons_of_mem _ ?_⟩
    exact ih f' (by omega)

theorem mem_gac_iff {t : Treeview} (hnd : (t.nodes.map Prod.fst).Nodup)
    (hlt : ∀ e ∈ t.nodes, ∀ p, e.2.parent = some p → p < e.1) {a x : Nat} :
    x ∈ t.get_all_children a ↔ Desc t a x := by
  constructor
  · exact gac_fuel_sound hnd _
  · intro h
    exact gac_fuel_complete hlt h _ (countAbove_le t a)

theorem desc_total {t : Treeview} (hnd : (t.nodes.map Prod.fst).Nodup)
    (hlt : ∀ e ∈ t.nodes, ∀ p, e.2.parent = some p → p < e.1) :
    ∀ x a b, Desc t a x → Desc t b x → a = b ∨ Desc t a b ∨ Desc t b a := by
  intro x
  induction x using Nat.strong_induction_on with
  | _ x ih =>
    intro a b ha hb
    obtain ⟨m, hm, hma⟩ := desc_inversion ha
    obtain ⟨m', hm', hmb⟩ := desc_inversion hb
    have hmm : m = m' := hasParent_unique hm hm'
    subst hmm
    rcases hma with rfl | hda
    · rcases hmb with rfl | hdb
      · exact Or.inl rfl
      · exact Or.inr (Or.inr hdb)
    · rcases hmb with rfl | hdb
      · exact Or.inr (Or.inl hda)
      · exact ih m (hasParent_lt hlt hm) a b hda hdb

theorem desc_not_of_children {t : Treeview} (hnd : (t.nodes.map Prod.fst).Nodup)
    (hlt : ∀ e ∈ t.nodes, ∀ p, e.2.parent = some p → p < e.1)
    {a c1 c2 : Nat} (h1 : HasParent t c1 a) (h2 : HasParent t c2 a) :
    ¬ Desc t c1 c2 := by
  intro hd
  obtain ⟨m, hm, hma⟩ := desc_inversion hd
  have : m = a := hasParent_unique hm h2
  subst this
  rcases hma with rfl | hda
  · exact absurd (hasParent_lt hlt h1) (by omega)
  · have h3 := desc_lt hlt hda
    have h4 := hasParent_lt hlt h1
    omega

theorem gac_fuel_nodup {t : Treeview} (hnd : (t.nodes.map Prod.fst).Nodup)
    (hlt : ∀ e ∈ t.nodes, ∀ p, e.2.parent = some p → p < e.1) :
    ∀ (f : Nat) (a : Nat), (getAllChildrenFuel t f a).Nodup := by
  intro f
  induction f with
  | zero => intro a; simp [getAllChildrenFuel]
  | succ f ih =>
    intro a
    rw [getAllChildrenFuel]
    rw [List.nodup_flatMap]
    constructor
    · intro c hc
      refine List.Nodup.cons ?_ (ih c)
      intro hmem
      have := desc_lt hlt (gac_fuel_sound hnd f hmem)
      omega
    · have hchn : (t.get_children (some a)).Nodup := by
        rw [Treeview.get_children]
        exact List.Nodup.sublist
          (List.Sublist.map Prod.fst (List.filter_sublist t.nodes)) hnd
      refine List.Pairwise.imp_of_mem ?_ hchn
      intro c1 c2 hc1 hc2 hne x hx1 hx2
      have hp1 : HasParent t c1 a := hasParent_of_mem_children hnd hc1
      have hp2 : HasParent t c2 a := hasParent_of_mem_children hnd hc2
      rcases List.mem_cons.mp hx1 with rfl | hd1
      · rcases List.mem_cons.mp hx2 with rfl | hd2
        · exact hne rfl
        · exact desc_not_of_children hnd hlt hp2 hp1 (gac_fuel_sound hnd f hd2)
      · rcases List.mem_cons.mp hx2 with rfl | hd2
        · exact desc_not_of_children hnd hlt hp1 hp2 (gac_fuel_sound hnd f hd1)
        · have t1 := gac_fuel_sound hnd f hd1
          have t2 := gac_fuel_sound hnd f hd2
          rcases desc_total hnd hlt x c1 c2 t1 t2 with rfl | hd | hd
          · exact hne rfl
          · exact desc_not_of_children hnd hlt hp1 hp2 hd
          · exact desc_not_of_children hnd hlt hp2 hp1 hd

theorem gac_nodup {t : Treeview} (hnd : (t.nodes.map Prod.fst).Nodup)
    (hlt : ∀ e ∈ t.nodes, ∀ p, e.2.parent = some p → p < e.1) (a : Nat) :
    (t.get_all_children a).Nodup :=
  gac_fuel_nodup hnd hlt _ a

theorem gac_empty_of_no_children {t : Treeview} {a : Nat}
    (h : t.get_children (some a) = []) : t.get_all_children a = [] := by
  rw [Treeview.get_all_children]
  cases hf : t.nodes.length with
  | zero => rfl
  | succ f => rw [getAllChildrenFuel, h]; rfl

/-! ## Invariant bookkeeping lemmas -/

theorem option_some_or {α : Type} (a : α) (x : Option α) : (some a).or x = some a := rfl

theorem option_none_or {α : Type} (x : Option α) : Option.or none x = x := by
  cases x <;> rfl

theorem dget_singleton_self {α β : Type} [DecidableEq α] (k : α) (v : β) :
    dget [(k, v)] k = some v := by
  simp [dget]

theorem invAt_weaken {s : AppState} (h : Inv s) (e : Option Nat) : InvAt s e := by
  refine ⟨h.tree_nodup, h.items_nodup, h.paths_nodup, h.fresh, h.parent_lt, h.parent_mem,
    h.node_item, h.item_node, h.item_path, h.path_item, h.path_ne_nil, h.parent_path, ?_⟩
  intro x hx ht _
  exact h.no_empty_folder x hx ht (by simp)

theorem invAt_resolve_children {s : AppState} {p : Nat} (h : InvAt s (some p))
    (hc : s.tree.get_children (some p) ≠ []) : Inv s := by
  refine ⟨h.tree_nodup, h.items_nodup, h.paths_nodup, h.fresh, h.parent_lt, h.parent_mem,
    h.node_item, h.item_node, h.item_path, h.path_item, h.path_ne_nil, h.parent_path, ?_⟩
  intro x hx ht _
  by_cases hxp : x.1 = p
  · rw [hxp]
    exact hc
  · exact h.no_empty_folder x hx ht (by simp [hxp])

theorem invAt_resolve_dead {s : AppState} {p : Nat} (h : InvAt s (some p))
    (hd : s.tree.existsItem p = false) : Inv s := by
  refine ⟨h.tree_nodup, h.items_nodup, h.paths_nodup, h.fresh, h.parent_lt, h.parent_mem,
    h.node_item, h.item_node, h.item_path, h.path_item, h.path_ne_nil, h.parent_path, ?_⟩
  intro x hx ht _
  by_cases hxp : x.1 = p
  · exfalso
    have := h.item_node x hx
    rw [hxp] at this
    rw [Treeview.existsItem] at hd
    rw [hd] at this
    simp at this
  · exact h.no_empty_folder x hx ht (by simp [hxp])

theorem invAt_resolve_nonfolder {s : AppState} {p : Nat} (h : InvAt s (some p))
    (hnf : ∀ it, dget s.file_items p = some it → it.type ≠ "Folder") : Inv s := by
  refine ⟨h.tree_nodup, h.items_nodup, h.paths_nodup, h.fresh, h.parent_lt, h.parent_mem,
    h.node_item, h.item_node, h.item_path, h.path_item, h.path_ne_nil, h.parent_path, ?_⟩
  intro x hx ht _
  by_cases hxp : x.1 = p
  · exfalso
    have hg : dget s.file_items p = some x.2 := by
      rw [← hxp]
      exact dget_of_mem h.items_nodup (by cases x; exact hx)
    exact hnf x.2 hg ht
  · exact h.no_empty_folder x hx ht (by simp [hxp])

theorem prefix_of_dropLast {r q : List String} (h : r <+: q)
    (hlen : r.length < q.length) : r <+: q.dropLast := by
  obtain ⟨u, rfl⟩ := h
  rcases List.eq_nil_or_concat u with rfl | ⟨u2, b, rfl⟩
  · simp at hlen
  · rw [List.concat_eq_append, ← List.append_assoc, List.dropLast_concat]
    exact List.prefix_append r u2

theorem key_prefix_closed (s : AppState) (hinv : Inv s) :
    ∀ (n : Nat) (q : PyPath), q.length ≤ n → (dget s.path_to_id q).isSome = true →
      ∀ r, r ≠ [] → r <+: q → (dget s.path_to_id r).isSome = true := by
  intro n
  induction n with
  | zero =>
    intro q hn hq r hr hpre
    have : q = [] := List.eq_nil_of_length_eq_zero (by omega)
    subst this
    rw [List.prefix_nil] at hpre
    exact absurd hpre hr
  | succ n ih =>
    intro q hn hq r hr hpre
    by_cases heq : r = q
    · rw [heq]
      exact hq
    · have hlen : r.length < q.length := by
        have h1 := hpre.length_le
        rcases Nat.lt_or_ge r.length q.length with h | h
        · exact h
        · exfalso
          exact heq (List.IsPrefix.eq_of_length hpre (by omega))
      obtain ⟨j, hj⟩ := Option.isSome_iff_exists.mp hq
      obtain ⟨it, hit, hitp⟩ := hinv.path_item (q, j) (dget_mem hj)
      replace hitp : it.path = q := hitp
      obtain ⟨nd, hnd⟩ := Option.isSome_iff_exists.mp (hinv.item_node (j, it) (dget_mem hit))
      have hq2 : 2 ≤ it.path.length := by
        rw [hitp]
        have : 1 ≤ r.length := by
          cases r with
          | nil => exact absurd rfl hr
          | cons a l => simp
        omega
      obtain ⟨j2, hj2, _⟩ := (hinv.parent_path (j, it) (dget_mem hit) nd hnd).2 hq2
      rw [hitp] at hj2
      have hdl : (dget s.path_to_id q.dropLast).isSome = true := by
        rw [hj2]
        rfl
      exact ih q.dropLast (by rw [List.length_dropLast]; omega) hdl r hr
        (prefix_of_dropLast hpre hlen)

/-- The effect of one `tree.insert` plus the two dictionary writes of
`add_path_to_tree` on the invariant: the new node becomes the (only)
possibly childless entry. -/
theorem invAt_after_insert (s : AppState) (cpath : PyPath) (part : String)
    (cparent : Option Nat) (tpe : String) (vals : List String) (op : Bool)
    (hinv : InvAt s cparent)
    (hparent : (cpath = [] ∧ cparent = none) ∨
      ∃ c, cparent = some c ∧ dget s.path_to_id cpath = some c)
    (hnew : dget s.path_to_id (cpath ++ [part]) = none) :
    InvAt
      { tree := { nodes := s.tree.nodes ++
                    [(s.tree.nextId,
                      { parent := cparent, text := part, values := vals, isOpen := op })],
                  nextId := s.tree.nextId + 1 },
        path_to_id := dset s.path_to_id (cpath ++ [part]) s.tree.nextId,
        file_items := dset s.file_items s.tree.nextId
          { path := cpath ++ [part], type := tpe, selected := false } }
      (some s.tree.nextId) := by
  have hfresh_tree : dget s.tree.nodes s.tree.nextId = none := by
    rw [dget_eq_none]
    intro e he heq
    have := hinv.fresh e he
    omega
  have hkey_lt : ∀ e ∈ s.file_items, e.1 < s.tree.nextId := by
    intro e he
    obtain ⟨nd0, hnd0⟩ := Option.isSome_iff_exists.mp (hinv.item_node e he)
    exact hinv.fresh (e.1, nd0) (dget_mem hnd0)
  have hfresh_fi : dget s.file_items s.tree.nextId = none := by
    rw [dget_eq_none]
    intro e he heq
    have := hkey_lt e he
    omega
  have hdsetfi := dset_fresh s.file_items s.tree.nextId
    (⟨cpath ++ [part], tpe, false⟩ : FileItem) hfresh_fi
  have hdsetpti := dset_fresh s.path_to_id (cpath ++ [part]) s.tree.nextId hnew
  have hparent_lt_new : ∀ c, cparent = some c → c < s.tree.nextId := by
    intro c hc
    rcases hparent with ⟨_, h0⟩ | ⟨c2, hc2, hg⟩
    · rw [h0] at hc
      simp at hc
    · rw [hc2] at hc
      injection hc with hc
      obtain ⟨it, hit, _⟩ := hinv.path_item (cpath, c2) (dget_mem hg)
      have := hkey_lt (c2, it) (dget_mem hit)
      omega
  have hparent_tree : ∀ c, cparent = some c → (dget s.tree.nodes c).isSome = true := by
    intro c hc
    rcases hparent with ⟨_, h0⟩ | ⟨c2, hc2, hg⟩
    · rw [h0] at hc
      simp at hc
    · rw [hc2] at hc
      injection hc with hc
      rw [← hc]
      obtain ⟨it, hit, _⟩ := hinv.path_item (cpath, c2) (dget_mem hg)
      exact hinv.item_node (c2, it) (dget_mem hit)
  rw [hdsetfi, hdsetpti]
  refine ⟨?_, ?_, ?_, ?_, ?_, ?_, ?_, ?_, ?_, ?_, ?_, ?_, ?_⟩
  · rw [List.map_append]
    refine List.Nodup.append hinv.tree_nodup (by simp) ?_
    intro x hx hmem
    simp only [List.map_cons, List.map_nil, List.mem_singleton] at hmem
    obtain ⟨e, he, rfl⟩ := List.mem_map.mp hx
    have := hinv.fresh e he
    omega
  · rw [List.map_append]
    refine List.Nodup.append hinv.items_nodup (by simp) ?_
    intro x hx hmem
    simp only [List.map_cons, List.map_nil, List.mem_singleton] at hmem
    obtain ⟨e, he, rfl⟩ := List.mem_map.mp hx
    have := hkey_lt e he
    omega
  · rw [List.map_append]
    refine List.Nodup.append hinv.paths_nodup (by simp) ?_
    intro x hx hmem
    simp only [List.map_cons, List.map_nil, List.mem_singleton] at hmem
    obtain ⟨e, he, rfl⟩ := List.mem_map.mp hx
    rw [dget_eq_none] at hnew
    exact hnew e he hmem
  · intro e he
    rcases List.mem_append.mp he with h | h
    · have := hinv.fresh e h
      show e.1 < s.tree.nextId + 1
      omega
    · simp only [List.mem_singleton] at h
      subst h
      show s.tree.nextId < s.tree.nextId + 1
      omega
  · intro e he p hp
    rcases List.mem_append.mp he with h | h
    · exact hinv.parent_lt e h p hp
    · simp only [List.mem_singleton] at h
      subst h
      exact hparent_lt_new p hp
  · intro e he p hp
    rcases List.mem_append.mp he with h | h
    · obtain ⟨nd2, hnd2⟩ := Option.isSome_iff_exists.mp (hinv.parent_mem e h p hp)
      simp only [dget_append, hnd2]
      rfl
    · simp only [List.mem_singleton] at h
      subst h
      obtain ⟨nd2, hnd2⟩ := Option.isSome_iff_exists.mp (hparent_tree p hp)
      simp only [dget_append, hnd2]
      rfl
  · intro e he
    rcases List.mem_append.mp he with h | h
    · obtain ⟨it2, hit2⟩ := Option.isSome_iff_exists.mp (hinv.node_item e h)
      simp only [dget_append, hit2]
      rfl
    · simp only [List.mem_singleton] at h
      subst h
      simp only [dget_append, hfresh_fi]
      simp [dget]
  · intro e he
    rcases List.mem_append.mp he with h | h
    · obtain ⟨nd2, hnd2⟩ := Option.isSome_iff_exists.mp (hinv.item_node e h)
      simp only [dget_append, hnd2]
      rfl
    · simp only [List.mem_singleton] at h
      subst h
      simp only [dget_append, hfresh_tree]
      simp [dget]
  · intro e he
    rcases List.mem_append.mp he with h | h
    · simp only [dget_append, hinv.item_path e h]
      rfl
    · simp only [List.mem_singleton] at h
      subst h
      simp only [dget_append, hnew]
      simp [dget]
  · intro e he
    rcases List.mem_append.mp he with h | h
    · obtain ⟨it2, hit2, hit2p⟩ := hinv.path_item e h
      refine ⟨it2, ?_, hit2p⟩
      simp only [dget_append, hit2]
      rfl
    · simp only [List.mem_singleton] at h
      subst h
      refine ⟨⟨cpath ++ [part], tpe, false⟩, ?_, rfl⟩
      simp only [dget_append, hfresh_fi]
      simp [dget]
  · intro e he
    rcases List.mem_append.mp he with h | h
    · exact hinv.path_ne_nil e h
    · simp only [List.mem_singleton] at h
      subst h
      simp
  · intro e he nnode hnnode
    rcases List.mem_append.mp he with h | h
    · obtain ⟨nd2, hnd2⟩ := Option.isSome_iff_exists.mp (hinv.item_node e h)
      simp only [dget_append, hnd2, option_some_or, Option.some.injEq] at hnnode
      subst hnnode
      have hpp := hinv.parent_path e h nd2 hnd2
      refine ⟨hpp.1, fun hl2 => ?_⟩
      obtain ⟨j, hj, hjp⟩ := hpp.2 hl2
      refine ⟨j, ?_, hjp⟩
      simp only [dget_append, hj]
      rfl
    · simp only [List.mem_singleton] at h
      subst h
      simp only [dget_append, hfresh_tree, option_none_or, dget_singleton_self,
        Option.some.injEq] at hnnode
      subst hnnode
      constructor
      · intro hl1
        rcases hparent with ⟨hc0, hc1⟩ | ⟨c, hc1, hc2⟩
        · exact hc1
        · exfalso
          have hne2 : cpath ≠ [] := hinv.path_ne_nil (cpath, c) (dget_mem hc2)
          simp only [List.length_append, List.length_cons, List.length_nil] at hl1
          have h0 : cpath = [] := List.eq_nil_of_length_eq_zero (by omega)
          exact hne2 h0
      · intro hl2
        rcases hparent with ⟨hc0, hc1⟩ | ⟨c, hc1, hc2⟩
        · exfalso
          subst hc0
          have h21 : (2:Nat) ≤ 1 := hl2
          omega
        · refine ⟨c, ?_, hc1⟩
          have hdl : (cpath ++ [part]).dropLast = cpath := by
            simp
          show dget (s.path_to_id ++ [(cpath ++ [part], s.tree.nextId)])
            (cpath ++ [part]).dropLast = some c
          rw [hdl, dget_append, hc2]
          rfl
  · intro e he ht hne
    rcases List.mem_append.mp he with h | h
    · by_cases hec : cparent = some e.1
      · apply List.ne_nil_of_mem (a := s.tree.nextId)
        rw [mem_get_children]
        refine ⟨{ parent := cparent, text := part, values := vals, isOpen := op }, ?_, hec⟩
        exact List.mem_append_right _ (List.mem_singleton_self _)
      · have hold := hinv.no_empty_folder e h ht (fun hcc => hec hcc.symm)
        obtain ⟨j, hj⟩ := List.exists_mem_of_ne_nil _ hold
        obtain ⟨nj, hnj, hpj⟩ := mem_get_children.mp hj
        apply List.ne_nil_of_mem (a := j)
        rw [mem_get_children]
        exact ⟨nj, List.mem_append_left _ hnj, hpj⟩
    · exfalso
      simp only [List.mem_singleton] at h
      subst h
      exact hne rfl


/-! ## Insertion preserves the invariant -/

theorem pySuffix_shape (name : String) :
    pySuffix name = "" ∨ ∃ cs, (pySuffix name).data = '.' :: cs := by
  simp only [pySuffix]
  split
  · rename_i i hr
    split
    · rename_i hc
      right
      rw [rfindDot] at hr
      have hmem := List.mem_of_mem_getLast? hr
      obtain ⟨e, hmem2, hfst⟩ := List.mem_map.mp hmem
      rw [List.mem_filter] at hmem2
      obtain ⟨henum, hdot⟩ := hmem2
      obtain ⟨i2, c⟩ := e
      have hi2 : i2 = i := hfst
      subst hi2
      have hdot2 : c = '.' := by simpa using hdot
      subst hdot2
      have hget := List.mk_mem_enum_iff_getElem?.mp henum
      have hlen : name.toList.length = name.data.length := rfl
      have hlt : i2 < name.data.length := by
        by_contra hge
        rw [List.getElem?_eq_none (by omega)] at hget
        exact Option.noConfusion hget
      refine ⟨name.data.drop (i2 + 1), ?_⟩
      show name.data.drop i2 = '.' :: name.data.drop (i2 + 1)
      rw [List.drop_eq_getElem_cons hlt]
      have hi : name.data[i2] = '.' := by
        have h0 := List.getElem?_eq_getElem hlt
        have hget2 : name.data[i2]? = some '.' := hget
        rw [h0] at hget2
        exact Option.some.inj hget2
      rw [hi]
    · left
      rfl
  · left
    rfl

theorem get_file_type_text_ne_folder (p : PyPath) : get_file_type_text p ≠ "Folder" := by
  simp only [get_file_type_text]
  by_cases h1 : pyLower (pathName p) = "readme.md"
  · rw [if_pos h1]
    decide
  · rw [if_neg h1]
    by_cases h2 : pyLower (pySuffix (pathName p)) = ""
    · rw [if_neg (not_not_intro h2)]
      decide
    · rw [if_pos h2]
      rcases pySuffix_shape (pathName p) with hs | ⟨cs, hs⟩
      · rw [hs] at h2
        exact absurd rfl h2
      · intro hcon
        have hdata : (pyLower (pySuffix (pathName p))).data = '.' :: cs.map Char.toLower := by
          simp [pyLower, hs]
        rw [hcon] at hdata
        have hh : "Folder".data.head? = some '.' := by rw [hdata]; rfl
        exact absurd hh (by decide)

theorem addCreate_file (fullPath : PyPath) (s : AppState) (cparent : Option Nat)
    (cp : PyPath) (part : String) (h : cp = fullPath) :
    addCreate fullPath s cparent cp part =
    ({ tree := { nodes := s.tree.nodes ++
                   [(s.tree.nextId,
                     { parent := cparent, text := part,
                       values := [determine_file_type false cp, pathStr cp],
                       isOpen := false })],
                 nextId := s.tree.nextId + 1 },
       path_to_id := dset s.path_to_id cp s.tree.nextId,
       file_items := dset s.file_items s.tree.nextId
         { path := cp, type := get_file_type_text cp, selected := false } },
     s.tree.nextId) := by
  simp only [addCreate, if_pos h, Treeview.insert]

theorem addCreate_folder (fullPath : PyPath) (s : AppState) (cparent : Option Nat)
    (cp : PyPath) (part : String) (h : cp ≠ fullPath) :
    addCreate fullPath s cparent cp part =
    ({ tree := { nodes := s.tree.nodes ++
                   [(s.tree.nextId,
                     { parent := cparent, text := part,
                       values := [symbol_folder, pathStr cp], isOpen := true })],
                 nextId := s.tree.nextId + 1 },
       path_to_id := dset s.path_to_id cp s.tree.nextId,
       file_items := dset s.file_items s.tree.nextId
         { path := cp, type := "Folder", selected := false } },
     s.tree.nextId) := by
  simp only [addCreate, if_neg h, Treeview.insert]

/-- A freshly inserted node has no children: every older node points (if
anywhere) strictly below itself, and the new node points at an older one. -/
theorem get_children_append_fresh_empty (t : Treeview)
    (hfr : ∀ e ∈ t.nodes, e.1 < t.nextId)
    (hlt : ∀ e ∈ t.nodes, ∀ p, e.2.parent = some p → p < e.1)
    (cparent : Option Nat) (hcp : ∀ c, cparent = some c → c < t.nextId)
    (txt : String) (vals : List String) (op : Bool) (m : Nat) :
    Treeview.get_children
      { nodes := t.nodes ++
          [(t.nextId, { parent := cparent, text := txt, values := vals, isOpen := op })],
        nextId := m } (some t.nextId) = [] := by
  rw [List.eq_nil_iff_forall_not_mem]
  intro j hj
  obtain ⟨nj, hnj, hpj⟩ := mem_get_children.mp hj
  rcases List.mem_append.mp hnj with h | h
  · have h1 := hlt (j, nj) h _ hpj
    have h2 := hfr (j, nj) h
    omega
  · simp only [List.mem_singleton] at h
    injection h with h1 h2
    subst h2
    have := hcp t.nextId hpj
    omega

/-- The loop invariant of `add_path_to_tree` is preserved along the walk:
starting in phase A (walking known prefixes) or phase B (creating the
rest), the loop ends in a state satisfying the full invariant. -/
theorem addLoop_inv (fullPath : PyPath) :
    ∀ (rest : List String) (s : AppState) (cp : Option Nat) (cpath : PyPath),
      fullPath = cpath ++ rest →
      (PhaseA s cp cpath ∨ (rest ≠ [] ∧ PhaseB s fullPath cp cpath)) →
      Inv (addLoop fullPath rest s cp cpath) := by
  intro rest
  induction rest with
  | nil =>
    intro s cp cpath hfull hphase
    rcases hphase with ⟨hinv, _⟩ | ⟨hne, _⟩
    · exact hinv
    · exact absurd rfl hne
  | cons part rest ih =>
    intro s cp cpath hfull hphase
    simp only [addLoop]
    rcases hphase with ⟨hinv, hpar⟩ | ⟨-, hB⟩
    · cases hg : dget s.path_to_id (cpath ++ [part]) with
      | some eid =>
        have hex : s.tree.existsItem eid = true := by
          obtain ⟨it, hit, -⟩ := hinv.path_item (cpath ++ [part], eid) (dget_mem hg)
          rw [Treeview.existsItem]
          exact hinv.item_node (eid, it) (dget_mem hit)
        simp only [hg, hex, if_true]
        exact ih s (some eid) (cpath ++ [part]) (by rw [hfull]; simp)
          (Or.inl ⟨hinv, Or.inr ⟨eid, rfl, hg⟩⟩)
      | none =>
        simp only [hg]
        have hcp_lt : ∀ c0, cp = some c0 → c0 < s.tree.nextId := by
          intro c0 hc0
          rcases hpar with ⟨-, h0⟩ | ⟨c2, hc2, hgc⟩
          · rw [h0] at hc0
            exact Option.noConfusion hc0
          · rw [hc2] at hc0
            injection hc0 with hcc
            subst hcc
            obtain ⟨it, hit, -⟩ := hinv.path_item (cpath, c2) (dget_mem hgc)
            obtain ⟨nd, hnd⟩ := Option.isSome_iff_exists.mp (hinv.item_node (c2, it) (dget_mem hit))
            exact hinv.fresh (c2, nd) (dget_mem hnd)
        cases rest with
        | nil =>
          have hfin : cpath ++ [part] = fullPath := by rw [hfull]
          rw [addCreate_file fullPath s cp (cpath ++ [part]) part hfin]
          have hS := invAt_after_insert s cpath part cp
            (get_file_type_text (cpath ++ [part]))
            [determine_file_type false (cpath ++ [part]), pathStr (cpath ++ [part])] false
            (invAt_weaken hinv cp) hpar hg
          have hnf : ∀ it, dget (dset s.file_items s.tree.nextId
              ⟨cpath ++ [part], get_file_type_text (cpath ++ [part]), false⟩)
              s.tree.nextId = some it → it.type ≠ "Folder" := by
            intro it hit
            rw [dget_dset_self] at hit
            injection hit with hit2
            rw [← hit2]
            exact get_file_type_text_ne_folder (cpath ++ [part])
          exact invAt_resolve_nonfolder hS hnf
        | cons p2 r2 =>
          have hfin : cpath ++ [part] ≠ fullPath := by
            rw [hfull]
            intro hcon
            have h2 := List.append_cancel_left hcon
            simp at h2
          rw [addCreate_folder fullPath s cp (cpath ++ [part]) part hfin]
          refine ih _ _ _ (by rw [hfull]; simp) (Or.inr ⟨by simp, s.tree.nextId, rfl, ?_, ?_, ?_, ?_⟩)
          · exact invAt_after_insert s cpath part cp "Folder"
              [symbol_folder, pathStr (cpath ++ [part])] true
              (invAt_weaken hinv cp) hpar hg
          · exact dget_dset_self _ _ _
          · exact get_children_append_fresh_empty s.tree hinv.fresh hinv.parent_lt cp hcp_lt
              part [symbol_folder, pathStr (cpath ++ [part])] true (s.tree.nextId + 1)
          · intro q hq hlen
            have hne : q ≠ cpath ++ [part] := by
              intro h0
              rw [h0] at hlen
              omega
            rw [dget_dset_ne _ _ _ _ hne]
            cases hx : dget s.path_to_id q with
            | none => rfl
            | some j =>
              exfalso
              have hqs : (dget s.path_to_id q).isSome = true := by rw [hx]; rfl
              have hpre : (cpath ++ [part]) <+: q := by
                refine List.prefix_of_prefix_length_le ?_ hq (Nat.le_of_lt hlen)
                rw [hfull]
                exact ⟨p2 :: r2, by simp⟩
              have hcl := key_prefix_closed s hinv q.length q le_rfl hqs
                (cpath ++ [part]) (by simp) hpre
              rw [hg] at hcl
              simp at hcl
    · obtain ⟨c, hcp, hinvB, hmap, hch, hnoext⟩ := hB
      subst hcp
      have hg : dget s.path_to_id (cpath ++ [part]) = none := by
        apply hnoext
        · rw [hfull]
          exact ⟨rest, by simp⟩
        · simp
      simp only [hg]
      have hcp_lt : ∀ c0, (some c : Option Nat) = some c0 → c0 < s.tree.nextId := by
        intro c0 hc0
        injection hc0 with hcc
        subst hcc
        obtain ⟨it, hit, -⟩ := hinvB.path_item (cpath, c) (dget_mem hmap)
        obtain ⟨nd, hnd⟩ := Option.isSome_iff_exists.mp (hinvB.item_node (c, it) (dget_mem hit))
        exact hinvB.fresh (c, nd) (dget_mem hnd)
      cases rest with
      | nil =>
        have hfin : cpath ++ [part] = fullPath := by rw [hfull]
        rw [addCreate_file fullPath s (some c) (cpath ++ [part]) part hfin]
        have hS := invAt_after_insert s cpath part (some c)
          (get_file_type_text (cpath ++ [part]))
          [determine_file_type false (cpath ++ [part]), pathStr (cpath ++ [part])] false
          hinvB (Or.inr ⟨c, rfl, hmap⟩) hg
        have hnf : ∀ it, dget (dset s.file_items s.tree.nextId
            ⟨cpath ++ [part], get_file_type_text (cpath ++ [part]), false⟩)
            s.tree.nextId = some it → it.type ≠ "Folder" := by
          intro it hit
          rw [dget_dset_self] at hit
          injection hit with hit2
          rw [← hit2]
          exact get_file_type_text_ne_folder (cpath ++ [part])
        exact invAt_resolve_nonfolder hS hnf
      | cons p2 r2 =>
        have hfin : cpath ++ [part] ≠ fullPath := by
          rw [hfull]
          intro hcon
          have h2 := List.append_cancel_left hcon
          simp at h2
        rw [addCreate_folder fullPath s (some c) (cpath ++ [part]) part hfin]
        refine ih _ _ _ (by rw [hfull]; simp) (Or.inr ⟨by simp, s.tree.nextId, rfl, ?_, ?_, ?_, ?_⟩)
        · exact invAt_after_insert s cpath part (some c) "Folder"
            [symbol_folder, pathStr (cpath ++ [part])] true
            hinvB (Or.inr ⟨c, rfl, hmap⟩) hg
        · exact dget_dset_self _ _ _
        · exact get_children_append_fresh_empty s.tree hinvB.fresh hinvB.parent_lt (some c) hcp_lt
            part [symbol_folder, pathStr (cpath ++ [part])] true (s.tree.nextId + 1)
        · intro q hq hlen
          have hne : q ≠ cpath ++ [part] := by
            intro h0
            rw [h0] at hlen
            omega
          rw [dget_dset_ne _ _ _ _ hne]
          apply hnoext q hq
          have hlp : (cpath ++ [part]).length = cpath.length + 1 := by simp
          omega

/-- `add_path_to_tree` preserves the reachable-state invariant. -/
theorem add_path_to_tree_inv (s : AppState) (p : PyPath) (hinv : Inv s) :
    Inv (add_path_to_tree s p) := by
  rw [add_path_to_tree]
  by_cases h : (dget s.path_to_id p).isSome
  · rw [if_pos h]
    exact hinv
  · rw [if_neg h]
    exact addLoop_inv p p s none [] rfl (Or.inl ⟨hinv, Or.inl ⟨rfl, rfl⟩⟩)

/-! ## Removal preserves the invariant -/

theorem desc_trans {t : Treeview} {a b c : Nat} (h1 : Desc t a b) (h2 : Desc t b c) :
    Desc t a c := by
  induction h1 with
  | base hp => exact Desc.step hp h2
  | step hp _ ih => exact Desc.step hp (ih h2)

theorem nodup_fst_ddel {α β : Type} [DecidableEq α] {m : List (α × β)} (k : α)
    (hnd : (m.map Prod.fst).Nodup) : ((ddel m k).map Prod.fst).Nodup :=
  hnd.sublist ((ddel_sublist m k).map Prod.fst)

theorem nodup_fst_filter {α β : Type} {m : List (α × β)} (p : α × β → Bool)
    (hnd : (m.map Prod.fst).Nodup) : ((m.filter p).map Prod.fst).Nodup :=
  hnd.sublist ((List.filter_sublist m).map Prod.fst)

/-- On a duplicate-free dictionary, filtering commutes with lookup
entry-wise. -/
theorem dget_filter_nodup {α β : Type} [DecidableEq α] {m : List (α × β)}
    (hnd : (m.map Prod.fst).Nodup) (p : α × β → Bool) (k : α) (v : β) :
    dget (m.filter p) k = some v ↔ dget m k = some v ∧ p (k, v) = true := by
  constructor
  · intro h
    have hmem := dget_mem h
    rw [List.mem_filter] at hmem
    exact ⟨dget_of_mem hnd hmem.1, hmem.2⟩
  · rintro ⟨h1, h2⟩
    exact dget_of_mem (nodup_fst_filter p hnd)
      (List.mem_filter.mpr ⟨dget_mem h1, h2⟩)

theorem ddel_filter_keys_cons {α β : Type} [DecidableEq α] (m : List (α × β)) (k : α)
    (L : List α) :
    (ddel m k).filter (fun e => decide (e.1 ∉ L)) =
      m.filter (fun e => decide (e.1 ∉ k :: L)) := by
  rw [ddel_eq_filter, List.filter_filter]
  apply List.filter_congr
  intro e he
  by_cases h1 : e.1 = k <;> by_cases h2 : e.1 ∈ L <;> simp [h1, h2]

/-- Deleting the unique entry whose value is `c` by its key, then filtering
values out of `L`, is filtering values out of `c :: L`. -/
theorem ddel_filter_vals_cons {α β : Type} [DecidableEq α] [DecidableEq β]
    (m : List (α × β)) (pkey : α) (c : β) (L : List β)
    (hget : dget m pkey = some c)
    (hpi : ∀ e ∈ m, e.2 = c → e.1 = pkey)
    (hnd : (m.map Prod.fst).Nodup) :
    (ddel m pkey).filter (fun e => decide (e.2 ∉ L)) =
      m.filter (fun e => decide (e.2 ∉ c :: L)) := by
  rw [ddel_eq_filter, List.filter_filter]
  apply List.filter_congr
  intro e he
  have hiff : e.1 = pkey ↔ e.2 = c := by
    constructor
    · intro h1
      have h0 := dget_of_mem hnd (show (e.1, e.2) ∈ m by simpa using he)
      rw [h1, hget] at h0
      exact (Option.some.inj h0).symm
    · intro h2
      exact hpi e he h2
  by_cases h1 : e.1 = pkey
  · simp [h1, hiff.mp h1]
  · have h2 : e.2 ≠ c := fun hc => h1 (hiff.mpr hc)
    by_cases h3 : e.2 ∈ L <;> simp [h1, h2, h3]

/-- The removal loop over ids whose tree nodes are already gone: each step
drops the id from `file_items` and its path from `path_to_id`, touches the
tree no further, and the `TclError` path never fires. -/
theorem removeChildren_dead (L : List Nat) :
    ∀ (s0 : AppState),
      L.Nodup →
      (∀ c ∈ L, s0.tree.existsItem c = false) →
      (∀ c ∈ L, ∃ it, dget s0.file_items c = some it ∧ dget s0.path_to_id it.path = some c) →
      (∀ e ∈ s0.path_to_id, ∃ it, dget s0.file_items e.2 = some it ∧ it.path = e.1) →
      (s0.path_to_id.map Prod.fst).Nodup →
      removeChildren s0 L =
        ({ tree := s0.tree,
           file_items := s0.file_items.filter (fun e => decide (e.1 ∉ L)),
           path_to_id := s0.path_to_id.filter (fun e => decide (e.2 ∉ L)) }, true) := by
  induction L with
  | nil =>
    intro s0 _ _ _ _ _
    simp [removeChildren]
  | cons c L2 ih =>
    intro s0 hnd hdead hfi hpi hpnd
    obtain ⟨it, hitc, hptc⟩ := hfi c (List.mem_cons_self c L2)
    rw [List.nodup_cons] at hnd
    have hstep : removeChildStep s0 c = some
        { tree := s0.tree, file_items := ddel s0.file_items c,
          path_to_id := ddel s0.path_to_id it.path } := by
      simp only [removeChildStep, hitc]
      rw [hptc]
      simp [hdead c (List.mem_cons_self c L2)]
    have hvalc : ∀ e ∈ s0.path_to_id, e.2 = c → e.1 = it.path := by
      intro e he hec
      obtain ⟨it0, hf0, hp0⟩ := hpi e he
      rw [hec, hitc] at hf0
      rw [← hp0, Option.some.inj hf0]
    have hrec := ih
      { tree := s0.tree, file_items := ddel s0.file_items c,
        path_to_id := ddel s0.path_to_id it.path }
      hnd.2
      (fun c2 h2 => hdead c2 (List.mem_cons_of_mem c h2))
      (by
        intro c2 h2
        obtain ⟨it2, hit2, hpt2⟩ := hfi c2 (List.mem_cons_of_mem c h2)
        have hne : c2 ≠ c := fun h0 => hnd.1 (h0 ▸ h2)
        have hpne : it2.path ≠ it.path := by
          intro h0
          rw [h0, hptc] at hpt2
          exact hne (Option.some.inj hpt2).symm
        exact ⟨it2, by rw [dget_ddel_ne _ _ _ hne]; exact hit2,
          by rw [dget_ddel_ne _ _ _ hpne]; exact hpt2⟩)
      (by
        intro e he
        rw [mem_ddel] at he
        obtain ⟨it0, hf0, hp0⟩ := hpi e he.1
        have hne : e.2 ≠ c := by
          intro h0
          rw [h0, hitc] at hf0
          exact he.2 (hp0 ▸ congrArg FileItem.path (Option.some.inj hf0) ▸ rfl)
        exact ⟨it0, by rw [dget_ddel_ne _ _ _ hne]; exact hf0, hp0⟩)
      (nodup_fst_ddel it.path hpnd)
    simp only [removeChildren, hstep]
    rw [hrec]
    simp only [ddel_filter_keys_cons,
      ddel_filter_vals_cons s0.path_to_id it.path c L2 hptc hvalc hpnd]

/-- The whole removal loop of `remove_item` on a live node, under the
invariant: the tree loses exactly the subtree of `i` (all in the first
step), both dictionaries lose exactly the doomed entries, and the
`TclError` path never fires. -/
theorem removeChildren_spec (s : AppState) (i : Nat) (hinv : Inv s)
    (hex : s.tree.existsItem i = true) :
    removeChildren s (i :: s.tree.get_all_children i) =
      ({ tree := s.tree.delete i,
         file_items := s.file_items.filter
           (fun e => decide (e.1 ∉ i :: s.tree.get_all_children i)),
         path_to_id := s.path_to_id.filter
           (fun e => decide (e.2 ∉ i :: s.tree.get_all_children i)) }, true) := by
  obtain ⟨nd, hnd⟩ := (existsItem_iff s.tree i).mp hex
  obtain ⟨iti, hiti⟩ :=
    Option.isSome_iff_exists.mp (hinv.node_item (i, nd) (dget_mem hnd))
  have hpti : dget s.path_to_id iti.path = some i := hinv.item_path (i, iti) (dget_mem hiti)
  have hgac : ∀ c, c ∈ s.tree.get_all_children i ↔ Desc s.tree i c := fun c =>
    mem_gac_iff hinv.tree_nodup hinv.parent_lt
  have hlive : ∀ c ∈ s.tree.get_all_children i, ∃ it2,
      dget s.file_items c = some it2 ∧ dget s.path_to_id it2.path = some c := by
    intro c hc
    obtain ⟨ndc, hndc⟩ := Option.isSome_iff_exists.mp (desc_isSome ((hgac c).mp hc))
    obtain ⟨it2, hit2⟩ :=
      Option.isSome_iff_exists.mp (hinv.node_item (c, ndc) (dget_mem hndc))
    exact ⟨it2, hit2, hinv.item_path (c, it2) (dget_mem hit2)⟩
  have hine : ∀ c ∈ s.tree.get_all_children i, c ≠ i := by
    intro c hc h0
    have := desc_lt hinv.parent_lt ((hgac c).mp hc)
    omega
  have hstep : removeChildStep s i = some
      { tree := s.tree.delete i, file_items := ddel s.file_items i,
        path_to_id := ddel s.path_to_id iti.path } := by
    simp only [removeChildStep, hiti]
    rw [hpti]
    simp [hex]
  have hvali : ∀ e ∈ s.path_to_id, e.2 = i → e.1 = iti.path := by
    intro e he hei
    obtain ⟨it0, hf0, hp0⟩ := hinv.path_item e he
    rw [hei, hiti] at hf0
    rw [← hp0, Option.some.inj hf0]
  have hrec := removeChildren_dead (s.tree.get_all_children i)
    { tree := s.tree.delete i, file_items := ddel s.file_items i,
      path_to_id := ddel s.path_to_id iti.path }
    (gac_nodup hinv.tree_nodup hinv.parent_lt i)
    (by
      intro c hc
      rw [Treeview.existsItem, dget_delete, if_pos (List.mem_cons_of_mem i hc)]
      rfl)
    (by
      intro c hc
      obtain ⟨it2, hit2, hpt2⟩ := hlive c hc
      have hcne := hine c hc
      have hpne : it2.path ≠ iti.path := by
        intro h0
        rw [h0, hpti] at hpt2
        exact hcne (Option.some.inj hpt2).symm
      exact ⟨it2, by rw [dget_ddel_ne _ _ _ hcne]; exact hit2,
        by rw [dget_ddel_ne _ _ _ hpne]; exact hpt2⟩)
    (by
      intro e he
      rw [mem_ddel] at he
      obtain ⟨it0, hf0, hp0⟩ := hinv.path_item e he.1
      have hne : e.2 ≠ i := by
        intro h0
        rw [h0, hiti] at hf0
        exact he.2 (hp0 ▸ congrArg FileItem.path (Option.some.inj hf0) ▸ rfl)
      exact ⟨it0, by rw [dget_ddel_ne _ _ _ hne]; exact hf0, hp0⟩)
    (nodup_fst_ddel iti.path hinv.paths_nodup)
  simp only [removeChildren, hstep]
  rw [hrec]
  simp only [ddel_filter_keys_cons,
    ddel_filter_vals_cons s.path_to_id iti.path i (s.tree.get_all_children i)
      hpti hvali hinv.paths_nodup]

/-- Deleting a whole subtree from the tree and both dictionaries preserves
the invariant, with only the removed node parent possibly left childless
(the exemption handed to the pruning loop). -/
theorem invAt_subtree_removed (s : AppState) (i : Nat) (hinv : InvAt s (some i))
    (hex : s.tree.existsItem i = true) :
    InvAt
      { tree := s.tree.delete i,
        file_items := s.file_items.filter
          (fun e => decide (e.1 ∉ i :: s.tree.get_all_children i)),
        path_to_id := s.path_to_id.filter
          (fun e => decide (e.2 ∉ i :: s.tree.get_all_children i)) }
      (s.tree.parentOf i) := by
  have hgac : ∀ c, c ∈ s.tree.get_all_children i ↔ Desc s.tree i c := fun c =>
    mem_gac_iff hinv.tree_nodup hinv.parent_lt
  have hclosed : ∀ x, x ∈ i :: s.tree.get_all_children i →
      ∀ c, HasParent s.tree c x → c ∈ i :: s.tree.get_all_children i := by
    intro x hx c hc
    rcases List.mem_cons.mp hx with rfl | hx2
    · exact List.mem_cons_of_mem _ ((hgac c).mpr (Desc.base hc))
    · exact List.mem_cons_of_mem _ ((hgac c).mpr (desc_extend ((hgac x).mp hx2) hc))
  have htr : ∀ k, k ∉ i :: s.tree.get_all_children i →
      dget (s.tree.delete i).nodes k = dget s.tree.nodes k := by
    intro k hk
    rw [dget_delete, if_neg hk]
  have hfiq : ∀ k, k ∉ i :: s.tree.get_all_children i →
      dget (s.file_items.filter
        (fun e => decide (e.1 ∉ i :: s.tree.get_all_children i))) k
        = dget s.file_items k := by
    intro k hk
    rw [dget_filter_keys s.file_items
      (fun x => decide (x ∉ i :: s.tree.get_all_children i)) k,
      if_pos (decide_eq_true hk)]
  refine ⟨?_, ?_, ?_, ?_, ?_, ?_, ?_, ?_, ?_, ?_, ?_, ?_, ?_⟩
  · exact nodup_fst_filter _ hinv.tree_nodup
  · exact nodup_fst_filter _ hinv.items_nodup
  · exact nodup_fst_filter _ hinv.paths_nodup
  · intro e he
    simp only [Treeview.delete, List.mem_filter] at he
    show e.1 < s.tree.nextId
    exact hinv.fresh e he.1
  · intro e he p hp
    simp only [Treeview.delete, List.mem_filter] at he
    exact hinv.parent_lt e he.1 p hp
  · intro e he p hp
    simp only [Treeview.delete, List.mem_filter] at he
    obtain ⟨hem, hpred⟩ := he
    have hni : e.1 ∉ i :: s.tree.get_all_children i := by simpa using hpred
    have hpD : p ∉ i :: s.tree.get_all_children i := by
      intro hpD
      exact hni (hclosed p hpD e.1
        ⟨e.2, dget_of_mem hinv.tree_nodup (by cases e; exact hem), hp⟩)
    rw [htr p hpD]
    exact hinv.parent_mem e hem p hp
  · intro e he
    simp only [Treeview.delete, List.mem_filter] at he
    have hni : e.1 ∉ i :: s.tree.get_all_children i := by simpa using he.2
    rw [hfiq e.1 hni]
    exact hinv.node_item e he.1
  · intro e he
    rw [List.mem_filter] at he
    have hni : e.1 ∉ i :: s.tree.get_all_children i := by simpa using he.2
    rw [htr e.1 hni]
    exact hinv.item_node e he.1
  · intro e he
    rw [List.mem_filter] at he
    have hni : e.1 ∉ i :: s.tree.get_all_children i := by simpa using he.2
    exact (dget_filter_nodup hinv.paths_nodup _ _ _).mpr
      ⟨hinv.item_path e he.1, by simp [hni]⟩
  · intro e he
    rw [List.mem_filter] at he
    have hni : e.2 ∉ i :: s.tree.get_all_children i := by simpa using he.2
    obtain ⟨it0, hf0, hp0⟩ := hinv.path_item e he.1
    refine ⟨it0, ?_, hp0⟩
    rw [hfiq e.2 hni]
    exact hf0
  · intro e he
    rw [List.mem_filter] at he
    exact hinv.path_ne_nil e he.1
  · intro e he n hn
    rw [List.mem_filter] at he
    have hni : e.1 ∉ i :: s.tree.get_all_children i := by simpa using he.2
    rw [htr e.1 hni] at hn
    have hpp := hinv.parent_path e he.1 n hn
    refine ⟨hpp.1, ?_⟩
    intro h2
    obtain ⟨j, hj, hnp⟩ := hpp.2 h2
    have hjD : j ∉ i :: s.tree.get_all_children i := by
      intro hjD
      exact hni (hclosed j hjD e.1 ⟨n, hn, hnp⟩)
    refine ⟨j, ?_, hnp⟩
    exact (dget_filter_nodup hinv.paths_nodup _ _ _).mpr ⟨hj, by simp [hjD]⟩
  · intro e he htype hne
    rw [List.mem_filter] at he
    have hni : e.1 ∉ i :: s.tree.get_all_children i := by simpa using he.2
    have hch := hinv.no_empty_folder e he.1 htype (by
      intro h0
      injection h0 with h0
      apply hni
      rw [h0]
      exact List.mem_cons_self i _)
    obtain ⟨c0, hc0⟩ := List.exists_mem_of_ne_nil _ hch
    have hcp : HasParent s.tree c0 e.1 := hasParent_of_mem_children hinv.tree_nodup hc0
    have hc0D : c0 ∉ i :: s.tree.get_all_children i := by
      intro hc0D
      rcases List.mem_cons.mp hc0D with rfl | hcg
      · apply hne
        obtain ⟨n0, hn0, hp0⟩ := hcp
        simp only [Treeview.parentOf, hn0]
        exact hp0.symm
      · obtain ⟨m, hm, hcase⟩ := desc_inversion ((hgac c0).mp hcg)
        have hme : m = e.1 := hasParent_unique hm hcp
        rcases hcase with h0 | h0
        · have h1 : e.1 = i := by rw [← hme, h0]
          apply hni
          rw [h1]
          exact List.mem_cons_self i _
        · have h1 : Desc s.tree i e.1 := by rw [← hme]; exact h0
          exact hni (List.mem_cons_of_mem _ ((hgac e.1).mpr h1))
    intro hempty
    have hmem2 : c0 ∈ (s.tree.delete i).get_children (some e.1) := by
      apply mem_children_of_hasParent
      obtain ⟨n0, hn0, hp0⟩ := hcp
      exact ⟨n0, by rw [htr c0 hc0D]; exact hn0, hp0⟩
    rw [hempty] at hmem2
    exact List.not_mem_nil c0 hmem2

/-- The upward-pruning loop of `cleanup_empty_parents` turns an invariant
state whose one possibly-empty folder is the pending parent into a fully
invariant state, given enough fuel. -/
theorem cleanupFuel_inv : ∀ (fuel : Nat) (s : AppState) (pid : Option Nat),
    InvAt s pid → s.tree.nodes.length < fuel → Inv (cleanupFuel fuel s pid) := by
  intro fuel
  induction fuel with
  | zero =>
    intro s pid hinv hlen
    omega
  | succ fuel ih =>
    intro s pid hinv hlen
    cases pid with
    | none => exact hinv
    | some p =>
      simp only [cleanupFuel]
      cases hexv : s.tree.existsItem p with
      | false =>
        rw [if_neg Bool.false_ne_true]
        exact invAt_resolve_dead hinv hexv
      | true =>
        rw [if_pos rfl]
        by_cases hch : s.tree.get_children (some p) = []
        · rw [if_pos hch]
          obtain ⟨nd, hnd⟩ := (existsItem_iff s.tree p).mp hexv
          obtain ⟨itp, hitp⟩ :=
            Option.isSome_iff_exists.mp (hinv.node_item (p, nd) (dget_mem hnd))
          have hpti : dget s.path_to_id itp.path = some p :=
            hinv.item_path (p, itp) (dget_mem hitp)
          have hgacp : s.tree.get_all_children p = [] := gac_empty_of_no_children hch
          have hmaps : cleanupMaps s p =
              { tree := s.tree, file_items := ddel s.file_items p,
                path_to_id := ddel s.path_to_id itp.path } := by
            simp only [cleanupMaps, hitp]
            rw [hpti]
            simp
          have hvalp : ∀ e ∈ s.path_to_id, e.2 = p → e.1 = itp.path := by
            intro e he hep
            obtain ⟨it0, hf0, hp0⟩ := hinv.path_item e he
            rw [hep, hitp] at hf0
            rw [← hp0, Option.some.inj hf0]
          have hsub := invAt_subtree_removed s p hinv hexv
          rw [hgacp] at hsub
          have hfi_eq : s.file_items.filter (fun e => decide (e.1 ∉ ([p] : List Nat)))
              = ddel s.file_items p := by
            rw [ddel_eq_filter]
            apply List.filter_congr
            intro e he
            simp
          have h1 := ddel_filter_vals_cons s.path_to_id itp.path p [] hpti hvalp
            hinv.paths_nodup
          have hpti_eq : s.path_to_id.filter (fun e => decide (e.2 ∉ ([p] : List Nat)))
              = ddel s.path_to_id itp.path := by
            rw [← h1]
            simp
          rw [hfi_eq, hpti_eq] at hsub
          have hlen2 : (s.tree.delete p).nodes.length < fuel := by
            have h2 := length_filter_lt s.tree.nodes
              (fun e => decide (e.1 ∉ p :: s.tree.get_all_children p))
              (fun e => true) (p, nd) (dget_mem hnd) (by simp) rfl
              (fun y hy h0 => rfl)
            rw [List.filter_true] at h2
            simp only [Treeview.delete]
            omega
          rw [hmaps]
          exact ih
            { tree := s.tree.delete p, file_items := ddel s.file_items p,
              path_to_id := ddel s.path_to_id itp.path }
            (s.tree.parentOf p) hsub hlen2
        · rw [if_neg hch]
          exact invAt_resolve_children hinv hch

/-- `remove_item` preserves the reachable-state invariant. -/
theorem remove_item_inv (s : AppState) (i : Nat) (hinv : Inv s) :
    Inv (remove_item s i) := by
  simp only [remove_item]
  cases hex : s.tree.existsItem i with
  | false =>
    rw [if_neg Bool.false_ne_true]
    exact hinv
  | true =>
    rw [if_pos rfl]
    rw [removeChildren_spec s i hinv hex]
    rw [if_pos rfl]
    rw [cleanup_empty_parents]
    apply cleanupFuel_inv
    · exact invAt_subtree_removed s i (invAt_weaken hinv (some i)) hex
    · omega

theorem desc_delete {t : Treeview} (hnd : (t.nodes.map Prod.fst).Nodup)
    (hlt : ∀ e ∈ t.nodes, ∀ p, e.2.parent = some p → p < e.1)
    {i a x : Nat} (hdesc : Desc t a x)
    (hx : x ∉ i :: t.get_all_children i) :
    Desc (t.delete i) a x := by
  induction hdesc with
  | base hp =>
    obtain ⟨n, hn, hnp⟩ := hp
    exact Desc.base ⟨n, by rw [dget_delete, if_neg hx]; exact hn, hnp⟩
  | step hp hd ih =>
    rename_i a c x
    have hcD : c ∉ i :: t.get_all_children i := by
      intro hcD
      apply hx
      rcases List.mem_cons.mp hcD with rfl | hcg
      · exact List.mem_cons_of_mem _ ((mem_gac_iff hnd hlt).mpr hd)
      · exact List.mem_cons_of_mem _
          ((mem_gac_iff hnd hlt).mpr (desc_trans ((mem_gac_iff hnd hlt).mp hcg) hd))
    obtain ⟨n, hn, hnp⟩ := hp
    exact Desc.step ⟨n, by rw [dget_delete, if_neg hcD]; exact hn, hnp⟩ (ih hx)

/-- Every live node lies under some top-level item. -/
theorem exists_toplevel (t : Treeview) (hnd : (t.nodes.map Prod.fst).Nodup)
    (hlt : ∀ e ∈ t.nodes, ∀ p, e.2.parent = some p → p < e.1)
    (hpm : ∀ e ∈ t.nodes, ∀ p, e.2.parent = some p → (dget t.nodes p).isSome = true) :
    ∀ (n : Nat) (e : Nat × TreeNode), e ∈ t.nodes → e.1 < n →
      ∃ r ∈ t.get_children none, r = e.1 ∨ Desc t r e.1 := by
  intro n
  induction n with
  | zero =>
    intro e he h0
    omega
  | succ n ih =>
    intro e he hlt2
    cases hpar : e.2.parent with
    | none =>
      refine ⟨e.1, ?_, Or.inl rfl⟩
      exact mem_get_children.mpr ⟨e.2, (by cases e; exact he), hpar⟩
    | some p =>
      have hplt : p < e.1 := hlt e he p hpar
      obtain ⟨np, hnp⟩ := Option.isSome_iff_exists.mp (hpm e he p hpar)
      obtain ⟨r, hr, hcase⟩ := ih (p, np) (dget_mem hnp) (by omega)
      have hHP : HasParent t e.1 p := ⟨e.2, dget_of_mem hnd (by cases e; exact he), hpar⟩
      refine ⟨r, hr, Or.inr ?_⟩
      rcases hcase with rfl | hd
      · exact Desc.base hHP
      · exact desc_extend hd hHP

/-- Deleting every item of a list that covers the whole tree (each node is
in the list or below a member) empties the tree. -/
theorem foldl_delete_nil : ∀ (L : List Nat) (t : Treeview),
    (t.nodes.map Prod.fst).Nodup →
    (∀ e ∈ t.nodes, ∀ p, e.2.parent = some p → p < e.1) →
    (∀ e ∈ t.nodes, ∃ r ∈ L, r = e.1 ∨ Desc t r e.1) →
    (L.foldl Treeview.delete t).nodes = [] := by
  intro L
  induction L with
  | nil =>
    intro t hnd hlt hcov
    simp only [List.foldl_nil]
    rcases hn : t.nodes with _ | ⟨e, rest⟩
    · rfl
    · exfalso
      obtain ⟨r, hr, -⟩ := hcov e (by rw [hn]; exact List.mem_cons_self e rest)
      exact List.not_mem_nil r hr
  | cons r0 L2 ih =>
    intro t hnd hlt hcov
    simp only [List.foldl_cons]
    apply ih (t.delete r0)
    · exact nodup_fst_filter _ hnd
    · intro e he p hp
      simp only [Treeview.delete, List.mem_filter] at he
      exact hlt e he.1 p hp
    · intro e he
      simp only [Treeview.delete, List.mem_filter] at he
      obtain ⟨hem, hpred⟩ := he
      have heD : e.1 ∉ r0 :: t.get_all_children r0 := by simpa using hpred
      obtain ⟨r, hr, hcase⟩ := hcov e hem
      rcases List.mem_cons.mp hr with rfl | hr2
      · exfalso
        apply heD
        rcases hcase with h0 | h0
        · rw [← h0]
          exact List.mem_cons_self _ _
        · exact List.mem_cons_of_mem _ ((mem_gac_iff hnd hlt).mpr h0)
      · refine ⟨r, hr2, ?_⟩
        rcases hcase with h0 | h0
        · exact Or.inl h0
        · exact Or.inr (desc_delete hnd hlt h0 heD)

/-- `clear_all` preserves the reachable-state invariant. -/
theorem clear_all_inv (s : AppState) (c : Bool) (hinv : Inv s) :
    Inv (clear_all s c) := by
  cases c with
  | false =>
    simp only [clear_all]
    rw [if_neg Bool.false_ne_true]
    exact hinv
  | true =>
    simp only [clear_all]
    rw [if_pos (by trivial)]
    have hnil : ((s.tree.get_children none).foldl Treeview.delete s.tree).nodes = [] := by
      apply foldl_delete_nil _ s.tree hinv.tree_nodup hinv.parent_lt
      intro e he
      exact exists_toplevel s.tree hinv.tree_nodup hinv.parent_lt hinv.parent_mem
        (e.1 + 1) e he (by omega)
    refine ⟨by rw [hnil]; simp, by simp, by simp, ?_, ?_, ?_, ?_, ?_, ?_, ?_, ?_, ?_, ?_⟩
    · intro e he
      rw [hnil] at he
      exact absurd he (List.not_mem_nil e)
    · intro e he
      rw [hnil] at he
      exact absurd he (List.not_mem_nil e)
    · intro e he
      rw [hnil] at he
      exact absurd he (List.not_mem_nil e)
    · intro e he
      rw [hnil] at he
      exact absurd he (List.not_mem_nil e)
    · intro e he
      exact absurd he (List.not_mem_nil e)
    · intro e he
      exact absurd he (List.not_mem_nil e)
    · intro e he
      exact absurd he (List.not_mem_nil e)
    · intro e he
      exact absurd he (List.not_mem_nil e)
    · intro e he
      exact absurd he (List.not_mem_nil e)
    · intro e he
      exact absurd he (List.not_mem_nil e)

theorem applyOp_inv (s : AppState) (op : Op) (hinv : Inv s) : Inv (applyOp s op) := by
  cases op with
  | insert p => exact add_path_to_tree_inv s p hinv
  | removeSubtree i => exact remove_item_inv s i hinv
  | clearAll c => exact clear_all_inv s c hinv

theorem inv_initState : Inv initState := by
  refine ⟨by simp [initState], by simp [initState], by simp [initState],
    ?_, ?_, ?_, ?_, ?_, ?_, ?_, ?_, ?_, ?_⟩
  all_goals intro e he
  all_goals simp [initState] at he

/-- Every state reachable by the Path-Tree Index operations satisfies the
full invariant. -/
theorem inv_runOps (ops : List Op) : Inv (runOps ops) := by
  rw [runOps]
  have h : ∀ (l : List Op) (s : AppState), Inv s → Inv (l.foldl applyOp s) := by
    intro l
    induction l with
    | nil =>
      intro s hs
      exact hs
    | cons op l ih =>
      intro s hs
      exact ih (applyOp s op) (applyOp_inv s op hs)
  exact h ops initState inv_initState

theorem cleanupMaps_tree (s : AppState) (p : Nat) : (cleanupMaps s p).tree = s.tree := by
  simp only [cleanupMaps]
  repeat' split
  all_goals rfl

theorem cleanupFuel_exists_mono : ∀ (fuel : Nat) (s : AppState) (pid : Option Nat) (x : Nat),
    (cleanupFuel fuel s pid).tree.existsItem x = true → s.tree.existsItem x = true := by
  intro fuel
  induction fuel with
  | zero =>
    intro s pid x h
    cases pid with
    | none => exact h
    | some p => exact h
  | succ fuel ih =>
    intro s pid x h
    cases pid with
    | none => exact h
    | some p =>
      simp only [cleanupFuel] at h
      by_cases hex : s.tree.existsItem p = true
      · rw [if_pos hex] at h
        by_cases hch : s.tree.get_children (some p) = []
        · rw [if_pos hch] at h
          have h2 := ih _ _ x h
          have h3 : ((cleanupMaps s p).tree.delete p).existsItem x = true := h2
          have h4 := existsItem_delete_mono h3
          rw [cleanupMaps_tree] at h4
          exact h4
        · rw [if_neg hch] at h
          exact h
      · rw [if_neg hex] at h
        exact h

theorem cleanup_empty_parents_exists_mono (s : AppState) (pid : Option Nat) (x : Nat)
    (h : (cleanup_empty_parents s pid).tree.existsItem x = true) :
    s.tree.existsItem x = true :=
  cleanupFuel_exists_mono _ s pid x h

theorem remove_item_noop (s : AppState) (i : Nat)
    (h : s.tree.existsItem i = false) : remove_item s i = s := by
  simp only [remove_item]
  rw [h]
  rw [if_neg Bool.false_ne_true]

theorem remove_item_kills (s : AppState) (i : Nat) (hinv : Inv s)
    (hex : s.tree.existsItem i = true) :
    (remove_item s i).tree.existsItem i = false := by
  simp only [remove_item]
  rw [if_pos hex, removeChildren_spec s i hinv hex, if_pos rfl]
  by_contra h0
  simp only [Bool.not_eq_false] at h0
  have h1 := cleanup_empty_parents_exists_mono _ _ _ h0
  have h2 : (s.tree.delete i).existsItem i = true := h1
  rw [existsItem_delete_self] at h2
  exact Bool.false_ne_true h2

theorem cleanup_empty_parents_dead (s : AppState) (p : Nat)
    (h : s.tree.existsItem p = false) : cleanup_empty_parents s (some p) = s := by
  rw [cleanup_empty_parents]
  simp only [cleanupFuel]
  rw [h]
  rw [if_neg Bool.false_ne_true]

theorem cleanup_empty_parents_of_none (s : AppState) : cleanup_empty_parents s none = s := by
  rw [cleanup_empty_parents]
  simp only [cleanupFuel]

/-! ## Claims C1, C5 and C9: the Path-Tree Index invariants -/

/-- C1: after every sequence of Path-Tree Index operations, every nonempty
prefix of every indexed file path (in particular every ancestor folder) is
present in the path index, and no Folder entry of the index has zero
children in the tree. -/
theorem tree_index_ancestor_closure_and_no_empty_folders (ops : List Op) :
    (∀ e ∈ (runOps ops).file_items, ∀ r, r ≠ ([] : PyPath) → r <+: e.2.path →
      (dget (runOps ops).path_to_id r).isSome = true) ∧
    (∀ e ∈ (runOps ops).file_items, e.2.type = "Folder" →
      (runOps ops).tree.get_children (some e.1) ≠ []) := by
  have hinv := inv_runOps ops
  constructor
  · intro e he r hr hpre
    have hself : dget (runOps ops).path_to_id e.2.path = some e.1 := hinv.item_path e he
    exact key_prefix_closed (runOps ops) hinv e.2.path.length e.2.path le_rfl
      (by rw [hself]; rfl) r hr hpre
  · intro e he ht
    exact hinv.no_empty_folder e he ht (by simp)

theorem tree_index_ancestor_closure_and_no_empty_folders_witness :
    (dget (runOps [Op.insert ["a", "b", "c.py"]]).path_to_id ["a"]).isSome = true ∧
    (runOps [Op.insert ["a", "b", "c.py"]]).tree.get_children (some 1) ≠ [] := by
  have h := tree_index_ancestor_closure_and_no_empty_folders [Op.insert ["a", "b", "c.py"]]
  exact ⟨h.1 (3, ⟨["a", "b", "c.py"], ".py", false⟩) (by decide) ["a"] (by decide) (by decide),
    h.2 (1, ⟨["a"], "Folder", false⟩) (by decide) rfl⟩

/-- C5: removing an id that is no longer in the tree is a no-op, removal is
idempotent on reachable states, and the upward pruning tolerates a pending
parent that is already deleted (and an absent parent). -/
theorem remove_item_idempotent_and_tolerant (s : AppState) (i : Nat) :
    (s.tree.existsItem i = false → remove_item s i = s) ∧
    (Inv s → remove_item (remove_item s i) i = remove_item s i) ∧
    (s.tree.existsItem i = false → cleanup_empty_parents s (some i) = s) ∧
    cleanup_empty_parents s none = s := by
  refine ⟨remove_item_noop s i, ?_, cleanup_empty_parents_dead s i,
    cleanup_empty_parents_of_none s⟩
  intro hinv
  cases hex : s.tree.existsItem i with
  | false =>
    have h1 := remove_item_noop s i hex
    rw [h1, h1]
  | true =>
    exact remove_item_noop _ i (remove_item_kills s i hinv hex)

theorem remove_item_idempotent_and_tolerant_witness :
    (remove_item (runOps [Op.insert ["a", "b.py"]]) 99 = runOps [Op.insert ["a", "b.py"]]) ∧
    (remove_item (remove_item (runOps [Op.insert ["a", "b.py"]]) 1) 1 =
      remove_item (runOps [Op.insert ["a", "b.py"]]) 1) ∧
    (cleanup_empty_parents (runOps [Op.insert ["a", "b.py"]]) (some 99) =
      runOps [Op.insert ["a", "b.py"]]) ∧
    cleanup_empty_parents (runOps [Op.insert ["a", "b.py"]]) none =
      runOps [Op.insert ["a", "b.py"]] := by
  have h99 := remove_item_idempotent_and_tolerant (runOps [Op.insert ["a", "b.py"]]) 99
  have h1 := remove_item_idempotent_and_tolerant (runOps [Op.insert ["a", "b.py"]]) 1
  exact ⟨h99.1 (by decide), h1.2.1 (inv_runOps _), h99.2.2.1 (by decide), h99.2.2.2⟩

/-- C9: on every reachable state of the Path-Tree Index, each `file_items`
entry has its path mapped back to the same id by `path_to_id` and refers to
a live tree node, and each `path_to_id` entry maps to a live tree node that
is tracked in `file_items` — so neither map retains an entry for a deleted
node. -/
theorem index_maps_bidirectional_consistency (ops : List Op) :
    (∀ e ∈ (runOps ops).file_items,
      dget (runOps ops).path_to_id e.2.path = some e.1 ∧
      (runOps ops).tree.existsItem e.1 = true) ∧
    (∀ e ∈ (runOps ops).path_to_id,
      (runOps ops).tree.existsItem e.2 = true ∧
      (dget (runOps ops).file_items e.2).isSome = true) := by
  have hinv := inv_runOps ops
  constructor
  · intro e he
    refine ⟨hinv.item_path e he, ?_⟩
    rw [Treeview.existsItem]
    exact hinv.item_node e he
  · intro e he
    obtain ⟨it, hit, -⟩ := hinv.path_item e he
    constructor
    · rw [Treeview.existsItem]
      exact hinv.item_node (e.2, it) (dget_mem hit)
    · rw [hit]
      rfl

theorem index_maps_bidirectional_consistency_witness :
    (dget (runOps [Op.insert ["a", "b.py"]]).path_to_id ["a", "b.py"] = some 2 ∧
      (runOps [Op.insert ["a", "b.py"]]).tree.existsItem 2 = true) ∧
    ((runOps [Op.insert ["a", "b.py"]]).tree.existsItem 1 = true ∧
      (dget (runOps [Op.insert ["a", "b.py"]]).file_items 1).isSome = true) := by
  have h := index_maps_bidirectional_consistency [Op.insert ["a", "b.py"]]
  exact ⟨h.1 (2, ⟨["a", "b.py"], ".py", false⟩) (by decide), h.2 (["a"], 1) (by decide)⟩

end FileSummarizer
